import Mathlib

/-!
Shallow embedding of the `permission-tree` Rust crate
(`src/lib.rs`, with the `main.rs` variant of `is_descendant`) and
verification of the specification claims about it.

The Rust code uses unbounded recursion over child sets
(`update_permission`, `update_tags`, `is_descendant`); the embedding
makes every such recursion fuel-indexed, returning `none` when the fuel
runs out.  `none` therefore models a computation that has not finished
within the given fuel; a statement quantified over all fuels with result
`none` models divergence of the Rust code.

`HashMap`/`HashSet` are modelled as `Nat → Option _` maps and `Finset`s;
the nondeterministic iteration order of `HashSet` during recursion into
children is determinised by sorting the child keys.
-/

set_option maxHeartbeats 1000000

namespace PermissionTree

inductive Permission where
  | Public
  | Private
deriving DecidableEq, Repr

structure TreeNode where
  id : Nat
  permission : Permission
  children : Finset Nat
  tags : Option (Finset String)
deriving DecidableEq

structure Tree where
  nodes : Nat → Option TreeNode
  parent_map : Nat → Option Nat

namespace Tree

def new : Tree := ⟨fun _ => none, fun _ => none⟩

end Tree

/-- Replace the node stored at key `k`. -/
def setNode (t : Tree) (k : Nat) (n : TreeNode) : Tree :=
  { t with nodes := fun j => if j = k then some n else t.nodes j }

/-- `get_mut`-style update: apply `f` to the node at `k` when it exists. -/
def modifyNode (t : Tree) (k : Nat) (f : TreeNode → TreeNode) : Tree :=
  match t.nodes k with
  | some n => setNode t k (f n)
  | none => t

/-- Record `p` as the parent of `c` in the parent map. -/
def setParent (t : Tree) (c p : Nat) : Tree :=
  { t with parent_map := fun j => if j = c then some p else t.parent_map j }

/-- The permission stored at key `k`, when the node exists. -/
def permOf (t : Tree) (k : Nat) : Option Permission :=
  (t.nodes k).map (fun n => n.permission)

/-- The tag set stored at key `k` (`none` when the node is absent or has no tags). -/
def tagsOptOf (t : Tree) (k : Nat) : Option (Finset String) :=
  (t.nodes k).bind (fun n => n.tags)

/-- The tag set at key `k`, defaulting to the empty set. -/
def tagSetOf (t : Tree) (k : Nat) : Finset String :=
  (tagsOptOf t k).getD ∅

namespace Tree

/-- `Tree::add_node`: insert a fresh node with the given permission,
empty children and absent tags; no-op when the key exists. -/
def add_node (t : Tree) (id : Nat) (permission : Permission) : Tree :=
  if (t.nodes id).isSome then t
  else setNode t id ⟨id, permission, ∅, none⟩

end Tree

/-- The body of `Tree::is_descendant` from `lib.rs`: walk the parent chain
upward from `current_id` looking for `node_id`.  Fuel-indexed loop. -/
def isDescendantGo (t : Tree) (node_id : Nat) : Nat → Nat → Option Bool
  | 0, _ => none
  | fuel + 1, current_id =>
    match t.parent_map current_id with
    | some parent_id =>
        if parent_id = node_id then some true
        else isDescendantGo t node_id fuel parent_id
    | none => some false

namespace Tree

/-- `Tree::is_descendant` (`lib.rs` variant, ancestor-chain walk). -/
def is_descendant (t : Tree) (fuel node_id potential_descendant_id : Nat) : Option Bool :=
  isDescendantGo t node_id fuel potential_descendant_id

end Tree

/-- Iterate over a `HashSet` of node keys: the embedding determinises the
(arbitrary) Rust iteration order by listing the keys in ascending order.
Implemented by insertion sort so that it reduces definitionally. -/
def sortKeys (s : Finset Nat) : List Nat :=
  Quot.liftOn s.val (List.insertionSort (· ≤ ·)) (fun a b h =>
    List.eq_of_perm_of_sorted
      ((List.perm_insertionSort _ a).trans (h.trans (List.perm_insertionSort _ b).symm))
      (List.sorted_insertionSort _ a) (List.sorted_insertionSort _ b))

theorem mem_sortKeys {s : Finset Nat} {a : Nat} : a ∈ sortKeys s ↔ a ∈ s := by
  rcases s with ⟨val, nodup⟩
  induction val using Quot.ind with
  | _ l =>
    show a ∈ List.insertionSort (· ≤ ·) l ↔ _
    rw [List.mem_insertionSort]
    rfl

/-- Run `f` over a work list of node keys, threading the tree state;
`none` aborts the whole run (fuel exhaustion in some call). -/
def runList (f : Tree → Nat → Option Tree) : Tree → List Nat → Option Tree
  | t, [] => some t
  | t, c :: cs =>
    match f t c with
    | some t2 => runList f t2 cs
    | none => none

/-- The non-recursive part of `Tree::update_permission`: make the node
`Private` when its recorded parent is `Private`. -/
def permStep (t : Tree) (node_id : Nat) : Tree :=
  match t.parent_map node_id with
  | some parent_id =>
    match t.nodes parent_id with
    | some parent_node =>
      if parent_node.permission = Permission.Private then
        modifyNode t node_id (fun n => { n with permission := Permission.Private })
      else t
    | none => t
  | none => t

/-- `Tree::update_permission`: recursively update the permission of a node
and its subtree.  If the node is already `Private`, stop; otherwise inherit
`Private` from the parent, then recurse into every child. -/
def updatePermission : Nat → Tree → Nat → Option Tree
  | 0, _, _ => none
  | fuel + 1, t, node_id =>
    if permOf t node_id = some Permission.Private then some t
    else
      match (permStep t node_id).nodes node_id with
      | some node =>
          runList (fun u c => updatePermission fuel u c) (permStep t node_id)
            (sortKeys node.children)
      | none => some (permStep t node_id)
termination_by structural fuel t node_id => fuel

/-- The tags inherited from the recorded parent (empty when there is no
parent or the parent has no tags), as computed by `Tree::update_tags`. -/
def inheritedTags (t : Tree) (node_id : Nat) : Finset String :=
  match t.parent_map node_id with
  | some parent_id =>
    match t.nodes parent_id with
    | some parent_node => parent_node.tags.getD ∅
    | none => ∅
  | none => ∅

/-- The non-recursive part of `Tree::update_tags`: merge the inherited tags
into the node's own tag set (creating it only when the union is non-empty). -/
def tagStep (t : Tree) (node_id : Nat) : Tree :=
  modifyNode t node_id (fun n =>
    match n.tags with
    | some tags_set => { n with tags := some (tags_set ∪ inheritedTags t node_id) }
    | none =>
        if inheritedTags t node_id = ∅ then n
        else { n with tags := some (inheritedTags t node_id) })

/-- `Tree::update_tags`: recursively update the tags of a node and its
subtree by inheriting the parent's tags (union; a `none` tag set becomes
`some` only when the inherited set is non-empty). -/
def updateTags : Nat → Tree → Nat → Option Tree
  | 0, _, _ => none
  | fuel + 1, t, node_id =>
    match (tagStep t node_id).nodes node_id with
    | some node =>
        runList (fun u c => updateTags fuel u c) (tagStep t node_id) (sortKeys node.children)
    | none => some (tagStep t node_id)
termination_by structural fuel t node_id => fuel

namespace Tree

/-- `Tree::add_tag_to_node`: insert a tag (creating the tag set if absent),
then re-run tag propagation rooted at the node; no-op when the key is absent. -/
def add_tag_to_node (fuel : Nat) (t : Tree) (id : Nat) (tag : String) : Option Tree :=
  match t.nodes id with
  | some _ =>
    let t1 := modifyNode t id (fun n =>
      match n.tags with
      | some tags => { n with tags := some (insert tag tags) }
      | none => { n with tags := some {tag} })
    updateTags fuel t1 id
  | none => some t

end Tree

/-- The structural mutation performed by a successful `connect_nodes`:
insert the child into the parent's child set and record the parent-map entry. -/
def linkStruct (t : Tree) (parent_id child_id : Nat) : Tree :=
  setParent (modifyNode t parent_id (fun n => { n with children := insert child_id n.children }))
    child_id parent_id

namespace Tree

/-- `Tree::connect_nodes`: make `parent_id` the parent of `child_id`,
after checking existence, `parent_id ≠ child_id`, and that the child has
no parent yet; then propagate permission and tags from the parent. -/
def connect_nodes (fuel : Nat) (t : Tree) (parent_id child_id : Nat) : Option Tree :=
  if !(t.nodes parent_id).isSome || !(t.nodes child_id).isSome then some t
  else if parent_id = child_id then some t
  else if (t.parent_map child_id).isSome then some t
  else
    (updatePermission fuel (linkStruct t parent_id child_id) child_id).bind
      (fun t4 => updateTags fuel t4 child_id)

end Tree

/-- The first structural mutation of a successful `move_subtree`: remove
the node from its current parent's child set (when it has a parent). -/
def detachStruct (t : Tree) (node_id : Nat) : Tree :=
  match t.parent_map node_id with
  | some current_parent_id =>
      modifyNode t current_parent_id (fun n => { n with children := n.children.erase node_id })
  | none => t

/-- The structural mutation performed by a successful `move_subtree`:
detach the node from its current parent, insert it into the new parent's
child set, and update the parent map. -/
def moveStruct (t : Tree) (node_id new_parent_id : Nat) : Tree :=
  setParent
    (modifyNode (detachStruct t node_id) new_parent_id
      (fun n => { n with children := insert node_id n.children }))
    node_id new_parent_id

namespace Tree

/-- `Tree::move_subtree`: move the subtree rooted at `node_id` under
`new_parent_id`, guarded by existence checks and the ancestor-chain
`is_descendant` test; then propagate permission and tags. -/
def move_subtree (fuel : Nat) (t : Tree) (node_id new_parent_id : Nat) : Option Tree :=
  if !(t.nodes node_id).isSome || !(t.nodes new_parent_id).isSome then some t
  else
    match t.is_descendant fuel node_id new_parent_id with
    | none => none
    | some true => some t
    | some false =>
        (updatePermission fuel (moveStruct t node_id new_parent_id) node_id).bind
          (fun t4 => updateTags fuel t4 node_id)

end Tree

/-- The `main.rs` variant's search over a list of children: return `true`
as soon as one recursive call does. -/
def anyList (f : Nat → Option Bool) : List Nat → Option Bool
  | [] => some false
  | c :: cs =>
    match f c with
    | some true => some true
    | some false => anyList f cs
    | none => none

/-- `Tree::is_descendant` from `main.rs`: search the descendant child sets
below `node_id` for `potential_descendant_id`. -/
def is_descendant_cs : Nat → Tree → Nat → Nat → Option Bool
  | 0, _, _, _ => none
  | fuel + 1, t, node_id, potential_descendant_id =>
    match t.nodes node_id with
    | some node =>
      if potential_descendant_id ∈ node.children then some true
      else anyList (fun child_id => is_descendant_cs fuel t child_id potential_descendant_id)
        (sortKeys node.children)
    | none => some false
termination_by structural fuel t node_id pot => fuel

/-- A single mutating operation of the public interface. -/
inductive MutOp where
  | add_node (id : Nat) (permission : Permission)
  | add_tag (id : Nat) (tag : String)
  | connect (parent_id child_id : Nat)
  | move (node_id new_parent_id : Nat)

/-- Apply one mutating operation with the given fuel. -/
def applyMut (fuel : Nat) (t : Tree) : MutOp → Option Tree
  | .add_node id p => some (t.add_node id p)
  | .add_tag id tag => t.add_tag_to_node fuel id tag
  | .connect p c => t.connect_nodes fuel p c
  | .move x y => t.move_subtree fuel x y

/-- Tree states reachable from the empty tree by completed operations. -/
inductive Reachable : Tree → Prop where
  | empty : Reachable Tree.new
  | step {t : Tree} {t' : Tree} (fuel : Nat) (op : MutOp) :
      Reachable t → applyMut fuel t op = some t' → Reachable t'

/-! ### Basic lookup lemmas for the state helpers -/

theorem modifyNode_nodes (t : Tree) (k : Nat) (f : TreeNode → TreeNode) (j : Nat) :
    (modifyNode t k f).nodes j = if j = k then (t.nodes k).map f else t.nodes j := by
  unfold modifyNode setNode
  cases h : t.nodes k with
  | none =>
    simp [h]
    by_cases hj : j = k
    · subst hj; simp [h]
    · simp [hj]
  | some n => simp [h]

theorem modifyNode_parent_map (t : Tree) (k : Nat) (f : TreeNode → TreeNode) :
    (modifyNode t k f).parent_map = t.parent_map := by
  unfold modifyNode setNode
  cases t.nodes k <;> rfl

theorem setParent_nodes (t : Tree) (c p : Nat) : (setParent t c p).nodes = t.nodes := rfl

theorem setParent_parent_map (t : Tree) (c p : Nat) (j : Nat) :
    (setParent t c p).parent_map j = if j = c then some p else t.parent_map j := rfl

/-! ### Well-formedness predicates

These formalise the invariants of §3 of the specification: bidirectional
parent/child consistency, existence of parent-map keys, and acyclicity of
the child/parent relations. -/

/-- `b` is a direct child of `a` (by the stored child sets). -/
def childRel (t : Tree) (a b : Nat) : Prop :=
  ∃ n, t.nodes a = some n ∧ b ∈ n.children

/-- `p` is the recorded parent of `c` (by the parent map). -/
def paRel (t : Tree) (c p : Nat) : Prop := t.parent_map c = some p

/-- Bidirectional parent/child consistency, exactly as claimed:
every parent-map entry points to an existing node whose child set contains
the key, and every child-set member points back through the parent map. -/
def Consist (t : Tree) : Prop :=
  (∀ c p, t.parent_map c = some p → ∃ n, t.nodes p = some n ∧ c ∈ n.children) ∧
  (∀ a n c, t.nodes a = some n → c ∈ n.children → t.parent_map c = some a)

/-- Every key of the parent map denotes an existing node. -/
def KeysExist (t : Tree) : Prop :=
  ∀ c p, t.parent_map c = some p → (t.nodes c).isSome

/-- The child relation has no cycles. -/
def ChildAcyclic (t : Tree) : Prop :=
  ∀ k, ¬ Relation.TransGen (childRel t) k k

/-- The parent map has no cycles (forest invariant). -/
def ParentAcyclic (t : Tree) : Prop :=
  ∀ k, ¬ Relation.TransGen (paRel t) k k

/-- Propagation completeness for visibility: every descendant of a
`Private` node is `Private`. -/
def PrivClosed (t : Tree) : Prop :=
  ∀ a b, permOf t a = some Permission.Private → Relation.TransGen (childRel t) a b →
    permOf t b = some Permission.Private

/-- Tag-superset invariant: a node with a parent whose tag set is present
carries a superset of the parent's tag set. -/
def TagInv (t : Tree) : Prop :=
  ∀ c p, t.parent_map c = some p → ∀ s, tagsOptOf t c = some s → tagSetOf t p ⊆ s

/-- No node a present-but-empty tag set (the `None` / empty distinction). -/
def NoEmptyTags (t : Tree) : Prop :=
  ∀ k n, t.nodes k = some n → n.tags ≠ some ∅

/-! ### Bridging the child relation and the parent chain -/

theorem consist_childRel_of_paRel {t : Tree} (hc : Consist t) {c p : Nat}
    (h : paRel t c p) : childRel t p c := by
  obtain ⟨n, hn, hmem⟩ := hc.1 c p h
  exact ⟨n, hn, hmem⟩

theorem consist_paRel_of_childRel {t : Tree} (hc : Consist t) {a b : Nat}
    (h : childRel t a b) : paRel t b a := by
  obtain ⟨n, hn, hmem⟩ := h
  exact hc.2 a n b hn hmem

theorem transGen_paRel_iff_childRel {t : Tree} (hc : Consist t) {a b : Nat} :
    Relation.TransGen (paRel t) a b ↔ Relation.TransGen (childRel t) b a := by
  constructor
  · intro h
    induction h with
    | single h1 => exact Relation.TransGen.single (consist_childRel_of_paRel hc h1)
    | tail _ h2 ih => exact Relation.TransGen.head (consist_childRel_of_paRel hc h2) ih
  · intro h
    induction h with
    | single h1 => exact Relation.TransGen.single (consist_paRel_of_childRel hc h1)
    | tail _ h2 ih => exact Relation.TransGen.head (consist_paRel_of_childRel hc h2) ih

theorem parentAcyclic_of_childAcyclic {t : Tree} (hc : Consist t) (ha : ChildAcyclic t) :
    ParentAcyclic t := by
  intro k hk
  exact ha k ((transGen_paRel_iff_childRel hc).mp hk)

/-! ### Generic lemmas about `runList` -/

theorem runList_nil (f : Tree → Nat → Option Tree) (t : Tree) : runList f t [] = some t := rfl

theorem runList_cons (f : Tree → Nat → Option Tree) (t : Tree) (c : Nat) (cs : List Nat) :
    runList f t (c :: cs) = (f t c).bind (fun t2 => runList f t2 cs) := by
  cases h : f t c <;> simp [runList, h]

/-- Any reflexive-transitive relation preserved by each step of `runList`
is preserved by the whole run. -/
theorem runList_rel {f : Tree → Nat → Option Tree} {R : Tree → Tree → Prop}
    (hrefl : ∀ u, R u u) (htrans : ∀ a b c, R a b → R b c → R a c)
    (hstep : ∀ u c u', f u c = some u' → R u u') :
    ∀ cs u u', runList f u cs = some u' → R u u' := by
  intro cs
  induction cs with
  | nil => intro u u' h; rw [runList_nil] at h; cases h; exact hrefl u
  | cons c cs ih =>
    intro u u' h
    rw [runList_cons] at h
    cases hf : f u c with
    | none => rw [hf] at h; cases h
    | some u2 =>
      rw [hf] at h
      exact htrans _ _ _ (hstep u c u2 hf) (ih u2 u' h)

/-! ### Structure preservation of the propagation passes

`update_permission` only rewrites permissions and `update_tags` only
rewrites tag sets; neither touches the parent map or any child set.  These
facts let the well-formedness predicates be transported across the passes. -/

/-- The structural content of a node: its key and its child set. -/
def nodeShape (n : TreeNode) : Nat × Finset Nat := (n.id, n.children)

/-- Two states with the same parent map and the same node shapes. -/
def StructEq (t u : Tree) : Prop :=
  t.parent_map = u.parent_map ∧ ∀ k, (t.nodes k).map nodeShape = (u.nodes k).map nodeShape

theorem structEq_refl (t : Tree) : StructEq t t := ⟨rfl, fun _ => rfl⟩

theorem structEq_trans {t u v : Tree} (h1 : StructEq t u) (h2 : StructEq u v) :
    StructEq t v :=
  ⟨h1.1.trans h2.1, fun k => (h1.2 k).trans (h2.2 k)⟩

theorem StructEq.symm {t u : Tree} (h : StructEq t u) : StructEq u t :=
  ⟨h.1.symm, fun k => (h.2 k).symm⟩

theorem StructEq.nodes_some {t u : Tree} (h : StructEq t u) {k : Nat} {n : TreeNode}
    (hn : t.nodes k = some n) : ∃ m, u.nodes k = some m ∧ m.id = n.id ∧ m.children = n.children := by
  have h2 := h.2 k
  rw [hn] at h2
  cases hm : u.nodes k with
  | none => rw [hm] at h2; cases h2
  | some m =>
    rw [hm] at h2
    simp only [Option.map] at h2
    have : nodeShape n = nodeShape m := by injection h2
    refine ⟨m, rfl, ?_, ?_⟩
    · exact congrArg Prod.fst this.symm
    · exact congrArg Prod.snd this.symm

theorem StructEq.nodes_none {t u : Tree} (h : StructEq t u) {k : Nat}
    (hn : t.nodes k = none) : u.nodes k = none := by
  have h2 := h.2 k
  rw [hn] at h2
  cases hm : u.nodes k with
  | none => rfl
  | some m => rw [hm] at h2; cases h2

theorem StructEq.childRel_iff {t u : Tree} (h : StructEq t u) (a b : Nat) :
    childRel u a b ↔ childRel t a b := by
  constructor
  · rintro ⟨n, hn, hb⟩
    obtain ⟨m, hm, _, hch⟩ := h.symm.nodes_some hn
    exact ⟨m, hm, hch ▸ hb⟩
  · rintro ⟨n, hn, hb⟩
    obtain ⟨m, hm, _, hch⟩ := h.nodes_some hn
    exact ⟨m, hm, hch ▸ hb⟩

theorem StructEq.consist {t u : Tree} (h : StructEq t u) (hc : Consist t) : Consist u := by
  constructor
  · intro c p hcp
    rw [← h.1] at hcp
    obtain ⟨n, hn, hmem⟩ := hc.1 c p hcp
    obtain ⟨m, hm, _, hch⟩ := h.nodes_some hn
    exact ⟨m, hm, hch ▸ hmem⟩
  · intro a n c hn hcmem
    obtain ⟨m, hm, _, hch⟩ := h.symm.nodes_some hn
    rw [← h.1]
    exact hc.2 a m c hm (hch ▸ hcmem)

theorem StructEq.keysExist {t u : Tree} (h : StructEq t u) (hk : KeysExist t) :
    KeysExist u := by
  intro c p hcp
  rw [← h.1] at hcp
  have := hk c p hcp
  cases hn : t.nodes c with
  | none => rw [hn] at this; cases this
  | some n =>
    obtain ⟨m, hm, _, _⟩ := h.nodes_some hn
    rw [hm]; rfl

theorem StructEq.childAcyclic {t u : Tree} (h : StructEq t u) (ha : ChildAcyclic t) :
    ChildAcyclic u := by
  intro k hk
  refine ha k ?_
  exact (Relation.TransGen.mono (fun a b hr => (h.childRel_iff a b).mp hr)) hk

/-- Ordering of tag options: present tag sets are preserved and can only grow. -/
def tagLe (a b : Option (Finset String)) : Prop :=
  ∀ s, a = some s → ∃ s2, b = some s2 ∧ s ⊆ s2

theorem tagLe_refl (a : Option (Finset String)) : tagLe a a :=
  fun s hs => ⟨s, hs, Finset.Subset.refl s⟩

theorem tagLe_trans {a b c : Option (Finset String)} (h1 : tagLe a b) (h2 : tagLe b c) :
    tagLe a c := by
  intro s hs
  obtain ⟨s2, hs2, hsub⟩ := h1 s hs
  obtain ⟨s3, hs3, hsub2⟩ := h2 s2 hs2
  exact ⟨s3, hs3, hsub.trans hsub2⟩

/-- What a completed `update_permission` run may do to the state: keep the
structure and all tags, and only promote permissions to `Private`. -/
def PermEvolve (t u : Tree) : Prop :=
  StructEq t u ∧ (∀ k, tagsOptOf u k = tagsOptOf t k) ∧
  (∀ k, permOf t k = some Permission.Private → permOf u k = some Permission.Private)

theorem permEvolve_refl (t : Tree) : PermEvolve t t :=
  ⟨structEq_refl t, fun _ => rfl, fun _ h => h⟩

theorem permEvolve_trans {t u v : Tree} (h1 : PermEvolve t u) (h2 : PermEvolve u v) :
    PermEvolve t v :=
  ⟨structEq_trans h1.1 h2.1, fun k => (h2.2.1 k).trans (h1.2.1 k),
    fun k h => h2.2.2 k (h1.2.2 k h)⟩

/-- What a completed `update_tags` run may do to the state: keep the
structure and all permissions, and only grow tag sets. -/
def TagEvolve (t u : Tree) : Prop :=
  StructEq t u ∧ (∀ k, permOf u k = permOf t k) ∧
  (∀ k, tagLe (tagsOptOf t k) (tagsOptOf u k))

theorem tagEvolve_refl (t : Tree) : TagEvolve t t :=
  ⟨structEq_refl t, fun _ => rfl, fun k => tagLe_refl _⟩

theorem tagEvolve_trans {t u v : Tree} (h1 : TagEvolve t u) (h2 : TagEvolve u v) :
    TagEvolve t v :=
  ⟨structEq_trans h1.1 h2.1, fun k => (h2.2.1 k).trans (h1.2.1 k),
    fun k => tagLe_trans (h1.2.2 k) (h2.2.2 k)⟩

theorem TagEvolve.tagSetOf_subset {t u : Tree} (h : TagEvolve t u) (k : Nat) :
    tagSetOf t k ⊆ tagSetOf u k := by
  unfold tagSetOf
  cases hs : tagsOptOf t k with
  | none => simp
  | some s =>
    obtain ⟨s2, hs2, hsub⟩ := h.2.2 k s hs
    simpa [hs2] using hsub

/-! Lemmas about `modifyNode` for field-preserving updates. -/

theorem modifyNode_structEq {t : Tree} {k : Nat} {f : TreeNode → TreeNode}
    (hf : ∀ n, nodeShape (f n) = nodeShape n) : StructEq t (modifyNode t k f) := by
  refine ⟨(modifyNode_parent_map t k f).symm, fun j => ?_⟩
  rw [modifyNode_nodes]
  by_cases hj : j = k
  · subst hj
    cases h : t.nodes j <;> simp [hf]
  · simp [hj]

theorem modifyNode_tags {t : Tree} {k : Nat} {f : TreeNode → TreeNode}
    (hf : ∀ n, (f n).tags = n.tags) (j : Nat) :
    tagsOptOf (modifyNode t k f) j = tagsOptOf t j := by
  unfold tagsOptOf
  rw [modifyNode_nodes]
  by_cases hj : j = k
  · subst hj
    cases h : t.nodes j <;> simp [hf]
  · simp [hj]

theorem modifyNode_perm {t : Tree} {k : Nat} {f : TreeNode → TreeNode}
    (hf : ∀ n, (f n).permission = n.permission) (j : Nat) :
    permOf (modifyNode t k f) j = permOf t j := by
  unfold permOf
  rw [modifyNode_nodes]
  by_cases hj : j = k
  · subst hj
    cases h : t.nodes j <;> simp [hf]
  · simp [hj]

theorem modifyNode_perm_frame {t : Tree} {k : Nat} {f : TreeNode → TreeNode} {j : Nat}
    (hj : j ≠ k) : permOf (modifyNode t k f) j = permOf t j := by
  unfold permOf
  rw [modifyNode_nodes]
  simp [hj]

/-! The permission step. -/

theorem permStep_evolve (t : Tree) (id : Nat) : PermEvolve t (permStep t id) := by
  unfold permStep
  split
  case h_2 => exact permEvolve_refl t
  case h_1 p hp =>
    split
    case h_2 => exact permEvolve_refl t
    case h_1 pn hpn =>
      split
      case isFalse => exact permEvolve_refl t
      case isTrue hpriv =>
        refine ⟨?_, ?_, ?_⟩
        · exact modifyNode_structEq (fun n => rfl)
        · intro k
          refine modifyNode_tags ?_ k
          intro n
          rfl
        · intro k hk
          unfold permOf at hk ⊢
          rw [modifyNode_nodes]
          by_cases hj : k = id
          · subst hj
            cases h : t.nodes k with
            | none => rw [h] at hk; cases hk
            | some n => simp
          · simp only [hj, if_false]
            exact hk

theorem permStep_of_not_private {t : Tree} {id : Nat}
    (h : ∀ p, t.parent_map id = some p → permOf t p ≠ some Permission.Private) :
    permStep t id = t := by
  unfold permStep
  split
  case h_2 => rfl
  case h_1 p hp =>
    split
    case h_2 => rfl
    case h_1 pn hpn =>
      split
      case isFalse => rfl
      case isTrue hpriv =>
        exact absurd (by simp [permOf, hpn, hpriv]) (h p hp)

theorem permStep_of_private {t : Tree} {id p : Nat}
    (hp : t.parent_map id = some p) (hpriv : permOf t p = some Permission.Private) :
    permStep t id = modifyNode t id (fun n => { n with permission := Permission.Private }) := by
  unfold permOf at hpriv
  cases hpn : t.nodes p with
  | none => rw [hpn] at hpriv; cases hpriv
  | some pn =>
    rw [hpn] at hpriv
    simp only [Option.map] at hpriv
    have hpn2 : pn.permission = Permission.Private := by injection hpriv
    unfold permStep
    simp [hp, hpn, hpn2]

/-- A completed `update_permission` only promotes permissions within an
unchanged structure. -/
theorem updatePermission_evolve :
    ∀ fuel (t : Tree) (id : Nat) (t' : Tree),
      updatePermission fuel t id = some t' → PermEvolve t t' := by
  intro fuel
  induction fuel with
  | zero => intro t id t' h; cases h
  | succ fuel ih =>
    intro t id t' h
    simp only [updatePermission] at h
    split at h
    · cases h; exact permEvolve_refl _
    · split at h
      case h_1 node hnode =>
        exact permEvolve_trans (permStep_evolve t id)
          (runList_rel permEvolve_refl (fun a b c => permEvolve_trans)
            (fun u c u' hu => ih u c u' hu) _ _ _ h)
      case h_2 =>
        cases h
        exact permStep_evolve t id

/-! The tag step. -/

theorem tagStep_evolve (t : Tree) (id : Nat) : TagEvolve t (tagStep t id) := by
  unfold tagStep
  refine ⟨?_, ?_, ?_⟩
  · refine modifyNode_structEq ?_
    intro n
    cases hn : n.tags with
    | some s => rfl
    | none =>
      by_cases hi : inheritedTags t id = ∅ <;> simp [hi, nodeShape]
  · intro k
    refine modifyNode_perm ?_ k
    intro n
    cases hn : n.tags with
    | some s => rfl
    | none =>
      by_cases hi : inheritedTags t id = ∅ <;> simp [hi]
  · intro k
    intro s hs
    unfold tagsOptOf at hs ⊢
    rw [modifyNode_nodes]
    by_cases hj : k = id
    · subst hj
      cases hn : t.nodes k with
      | none => rw [hn] at hs; cases hs
      | some n =>
        rw [hn] at hs
        simp only [Option.bind] at hs
        simp only [if_pos rfl, Option.map, hs, Option.bind]
        exact ⟨s ∪ inheritedTags t k, rfl, Finset.subset_union_left⟩
    · simp only [hj, if_false]
      exact ⟨s, hs, Finset.Subset.refl s⟩

/-- A completed `update_tags` only grows tag sets within an unchanged
structure. -/
theorem updateTags_evolve :
    ∀ fuel (t : Tree) (id : Nat) (t' : Tree),
      updateTags fuel t id = some t' → TagEvolve t t' := by
  intro fuel
  induction fuel with
  | zero => intro t id t' h; cases h
  | succ fuel ih =>
    intro t id t' h
    simp only [updateTags] at h
    split at h
    case h_1 node hnode =>
      exact tagEvolve_trans (tagStep_evolve t id)
        (runList_rel tagEvolve_refl (fun a b c => tagEvolve_trans)
          (fun u c u' hu => ih u c u' hu) _ _ _ h)
    case h_2 =>
      cases h
      exact tagStep_evolve t id

/-! ### Frame lemmas: propagation touches only the subtree of its root -/

/-- `k` lies in the subtree rooted at `root` (including `root` itself),
following the stored child sets. -/
def inSubtree (t : Tree) (root k : Nat) : Prop :=
  Relation.ReflTransGen (childRel t) root k

theorem StructEq.inSubtree_iff {t u : Tree} (h : StructEq t u) (root k : Nat) :
    inSubtree u root k ↔ inSubtree t root k := by
  unfold inSubtree
  constructor
  · exact Relation.ReflTransGen.mono (fun a b hr => (h.childRel_iff a b).mp hr)
  · exact Relation.ReflTransGen.mono (fun a b hr => (h.childRel_iff a b).mpr hr)

theorem permStep_perm_frame {t : Tree} {id k : Nat} (hk : k ≠ id) :
    permOf (permStep t id) k = permOf t k := by
  unfold permStep
  split
  case h_2 => rfl
  case h_1 =>
    split
    case h_2 => rfl
    case h_1 =>
      split
      case isFalse => rfl
      case isTrue => exact modifyNode_perm_frame hk

theorem tagStep_tags_frame {t : Tree} {id k : Nat} (hk : k ≠ id) :
    tagsOptOf (tagStep t id) k = tagsOptOf t k := by
  unfold tagStep tagsOptOf
  rw [modifyNode_nodes]
  simp [hk]

/-- Children of a node are in its subtree, and members of the sorted key
list of a node's child set step one level down the subtree. -/
theorem childRel_of_mem_sortKeys {t : Tree} {id c : Nat} {n : TreeNode}
    (hn : t.nodes id = some n) (hc : c ∈ sortKeys n.children) : childRel t id c :=
  ⟨n, hn, mem_sortKeys.mp hc⟩

/-- A completed `update_permission` run leaves the permission of every key
outside the subtree of its root unchanged. -/
theorem updatePermission_frame :
    ∀ fuel (t : Tree) (id : Nat) (t' : Tree),
      updatePermission fuel t id = some t' →
      ∀ k, ¬ inSubtree t id k → permOf t' k = permOf t k := by
  intro fuel
  induction fuel with
  | zero => intro t id t' h; cases h
  | succ fuel ih =>
    intro t id t' h k hk
    have hkid : k ≠ id := fun he => hk (he ▸ Relation.ReflTransGen.refl)
    simp only [updatePermission] at h
    split at h
    · cases h; rfl
    · have hps : StructEq t (permStep t id) := (permStep_evolve t id).1
      split at h
      case h_1 node hnode =>
        -- `runList` over the children: prove a frame for the whole fold.
        obtain ⟨n0, hn0, _, hch⟩ := hps.symm.nodes_some hnode
        have hlist :
            ∀ cs u t', StructEq t u →
              (∀ c, c ∈ cs → childRel t id c) →
              runList (fun u c => updatePermission fuel u c) u cs = some t' →
              permOf t' k = permOf u k := by
          intro cs
          induction cs with
          | nil => intro u t' _ _ hr; rw [runList_nil] at hr; cases hr; rfl
          | cons c cs ihcs =>
            intro u t' hu hcs hr
            rw [runList_cons] at hr
            cases hf : updatePermission fuel u c with
            | none => rw [hf] at hr; cases hr
            | some u2 =>
              rw [hf] at hr
              have hu2 : StructEq t u2 := structEq_trans hu (updatePermission_evolve fuel u c u2 hf).1
              have hstep : permOf u2 k = permOf u k := by
                refine ih u c u2 hf k ?_
                intro hsub
                refine hk ?_
                have : inSubtree t c k := (hu.inSubtree_iff c k).mp hsub
                exact Relation.ReflTransGen.head (hcs c (List.mem_cons_self c cs)) this
              have htail : permOf t' k = permOf u2 k :=
                ihcs u2 t' hu2 (fun c' hc' => hcs c' (List.mem_cons_of_mem c hc')) hr
              rw [htail, hstep]
        have hmem : ∀ c, c ∈ sortKeys node.children → childRel t id c := by
          intro c hc
          exact childRel_of_mem_sortKeys hn0 (hch ▸ hc)
        rw [hlist (sortKeys node.children) (permStep t id) t' hps hmem h]
        exact permStep_perm_frame hkid
      case h_2 =>
        cases h
        exact permStep_perm_frame hkid

/-- A completed `update_tags` run leaves the tag set of every key outside
the subtree of its root unchanged. -/
theorem updateTags_frame :
    ∀ fuel (t : Tree) (id : Nat) (t' : Tree),
      updateTags fuel t id = some t' →
      ∀ k, ¬ inSubtree t id k → tagsOptOf t' k = tagsOptOf t k := by
  intro fuel
  induction fuel with
  | zero => intro t id t' h; cases h
  | succ fuel ih =>
    intro t id t' h k hk
    have hkid : k ≠ id := fun he => hk (he ▸ Relation.ReflTransGen.refl)
    simp only [updateTags] at h
    have hps : StructEq t (tagStep t id) := (tagStep_evolve t id).1
    split at h
    case h_1 node hnode =>
      obtain ⟨n0, hn0, _, hch⟩ := hps.symm.nodes_some hnode
      have hlist :
          ∀ cs u t', StructEq t u →
            (∀ c, c ∈ cs → childRel t id c) →
            runList (fun u c => updateTags fuel u c) u cs = some t' →
            tagsOptOf t' k = tagsOptOf u k := by
        intro cs
        induction cs with
        | nil => intro u t' _ _ hr; rw [runList_nil] at hr; cases hr; rfl
        | cons c cs ihcs =>
          intro u t' hu hcs hr
          rw [runList_cons] at hr
          cases hf : updateTags fuel u c with
          | none => rw [hf] at hr; cases hr
          | some u2 =>
            rw [hf] at hr
            have hu2 : StructEq t u2 := structEq_trans hu (updateTags_evolve fuel u c u2 hf).1
            have hstep : tagsOptOf u2 k = tagsOptOf u k := by
              refine ih u c u2 hf k ?_
              intro hsub
              refine hk ?_
              have : inSubtree t c k := (hu.inSubtree_iff c k).mp hsub
              exact Relation.ReflTransGen.head (hcs c (List.mem_cons_self c cs)) this
            have htail : tagsOptOf t' k = tagsOptOf u2 k :=
              ihcs u2 t' hu2 (fun c' hc' => hcs c' (List.mem_cons_of_mem c hc')) hr
            rw [htail, hstep]
      have hmem : ∀ c, c ∈ sortKeys node.children → childRel t id c := by
        intro c hc
        exact childRel_of_mem_sortKeys hn0 (hch ▸ hc)
      rw [hlist (sortKeys node.children) (tagStep t id) t' hps hmem h]
      exact tagStep_tags_frame hkid
    case h_2 =>
      cases h
      exact tagStep_tags_frame hkid

/-! ### Divergence of `update_tags` on a child-set cycle

`update_tags` recurses into every child unconditionally, so whenever its
root lies on a cycle of the child relation the recursion never terminates:
in the fuel model it returns `none` for every fuel. -/

theorem updateTags_cycle :
    ∀ fuel (t : Tree) (id : Nat), Relation.TransGen (childRel t) id id →
      updateTags fuel t id = none := by
  intro fuel
  induction fuel with
  | zero => intro t id hcyc; rfl
  | succ fuel ih =>
    intro t id hcyc
    obtain ⟨c0, hc0, hrtg⟩ := (Relation.TransGen.head'_iff).mp hcyc
    have hcyc0 : Relation.TransGen (childRel t) c0 c0 :=
      (Relation.TransGen.tail'_iff).mpr ⟨id, hrtg, hc0⟩
    obtain ⟨n0, hn0, hc0mem⟩ := hc0
    have hps : StructEq t (tagStep t id) := (tagStep_evolve t id).1
    obtain ⟨node, hnode, _, hch⟩ := hps.nodes_some hn0
    simp only [updateTags]
    rw [hnode]
    have hlist :
        ∀ cs u, StructEq t u → (∃ c, c ∈ cs ∧ Relation.TransGen (childRel t) c c) →
          runList (fun u c => updateTags fuel u c) u cs = none := by
      intro cs
      induction cs with
      | nil => rintro u _ ⟨c, hc, _⟩; cases hc
      | cons c1 cs ihcs =>
        rintro u hu ⟨c, hc, hcycc⟩
        rw [runList_cons]
        rcases List.mem_cons.mp hc with hceq | hcin
        · subst hceq
          have : Relation.TransGen (childRel u) c c :=
            Relation.TransGen.mono (fun a b hr => (hu.childRel_iff a b).mpr hr) hcycc
          rw [ih u c this]
          rfl
        · cases hf : updateTags fuel u c1 with
          | none => rfl
          | some u2 =>
            have hu2 : StructEq t u2 := structEq_trans hu (updateTags_evolve fuel u c1 u2 hf).1
            simp only [Option.bind]
            exact ihcs u2 hu2 ⟨c, hcin, hcycc⟩
    refine hlist (sortKeys node.children) (tagStep t id) hps ⟨c0, ?_, hcyc0⟩
    rw [hch]
    exact mem_sortKeys.mpr hc0mem

/-! ### Paths in a relation extended by one edge -/

/-- Decompose a transitive path over a relation `s` contained in
`r` plus the single edge `p → c`: the path either stays in `r`, or it
reaches `p`, crosses the edge (for the last time), and continues from `c`
by `r`-steps only. -/
theorem transGen_subEdge {α : Type} {r s : α → α → Prop} {p c : α}
    (hsub : ∀ a b, s a b → r a b ∨ (a = p ∧ b = c)) {x y : α}
    (h : Relation.TransGen s x y) :
    Relation.TransGen r x y ∨
      (Relation.ReflTransGen s x p ∧ Relation.ReflTransGen r c y) := by
  induction h with
  | single hxy =>
    rcases hsub _ _ hxy with hr | ⟨hxp, hyc⟩
    · exact Or.inl (Relation.TransGen.single hr)
    · subst hxp; subst hyc
      exact Or.inr ⟨Relation.ReflTransGen.refl, Relation.ReflTransGen.refl⟩
  | tail hxz hzy ih =>
    rcases hsub _ _ hzy with hr | ⟨hzp, hyc⟩
    · rcases ih with hl | ⟨hxp, hcz⟩
      · exact Or.inl (Relation.TransGen.tail hl hr)
      · exact Or.inr ⟨hxp, Relation.ReflTransGen.tail hcz hr⟩
    · subst hzp; subst hyc
      exact Or.inr ⟨hxz.to_reflTransGen, Relation.ReflTransGen.refl⟩

/-! ### The structural mutations of `connect_nodes` and `move_subtree` -/

theorem linkStruct_parent_map (t : Tree) (p c j : Nat) :
    (linkStruct t p c).parent_map j = if j = c then some p else t.parent_map j := by
  unfold linkStruct
  rw [setParent_parent_map, modifyNode_parent_map]

theorem linkStruct_nodes (t : Tree) (p c j : Nat) :
    (linkStruct t p c).nodes j =
      if j = p then (t.nodes p).map (fun n => { n with children := insert c n.children })
      else t.nodes j := by
  unfold linkStruct
  rw [setParent_nodes, modifyNode_nodes]

theorem linkStruct_nodes_isSome (t : Tree) (p c j : Nat) :
    ((linkStruct t p c).nodes j).isSome = (t.nodes j).isSome := by
  rw [linkStruct_nodes]
  by_cases hj : j = p
  · subst hj; cases t.nodes j <;> simp
  · simp [hj]

theorem linkStruct_childRel {t : Tree} {p c : Nat} (a b : Nat) :
    childRel (linkStruct t p c) a b ↔
      (childRel t a b ∨ (a = p ∧ b = c ∧ (t.nodes p).isSome)) := by
  unfold childRel
  rw [linkStruct_nodes]
  by_cases ha : a = p
  · subst ha
    rw [if_pos rfl]
    cases hn : t.nodes a with
    | none =>
      simp only [hn, Option.map]
      constructor
      · rintro ⟨m, hm, _⟩; cases hm
      · rintro (⟨m, hm, _⟩ | ⟨_, _, hsome⟩)
        · cases hm
        · cases hsome
    | some n =>
      simp only [hn, Option.map, Option.isSome_some]
      constructor
      · rintro ⟨m, hm, hb⟩
        injection hm with hm
        rw [← hm] at hb
        simp only [Finset.mem_insert] at hb
        rcases hb with hb | hb
        · exact Or.inr ⟨by trivial, hb, by trivial⟩
        · exact Or.inl ⟨n, rfl, hb⟩
      · rintro (⟨m, hm, hb⟩ | ⟨_, hb, _⟩)
        · injection hm with hm
          subst hm
          exact ⟨_, rfl, Finset.mem_insert_of_mem hb⟩
        · exact ⟨_, rfl, hb ▸ Finset.mem_insert_self c n.children⟩
  · rw [if_neg ha]
    constructor
    · rintro ⟨n, hn, hb⟩
      exact Or.inl ⟨n, hn, hb⟩
    · rintro (⟨n, hn, hb⟩ | ⟨hap, _, _⟩)
      · exact ⟨n, hn, hb⟩
      · exact absurd hap ha

theorem consist_linkStruct {t : Tree} (hc : Consist t) {p c : Nat}
    (hp : (t.nodes p).isSome) (hpm : t.parent_map c = none) :
    Consist (linkStruct t p c) := by
  constructor
  · intro c1 p1 h1
    rw [linkStruct_parent_map] at h1
    by_cases hc1 : c1 = c
    · rw [if_pos hc1] at h1
      subst hc1
      injection h1 with h1
      subst h1
      exact (linkStruct_childRel p c1).mpr (Or.inr ⟨rfl, rfl, hp⟩)
    · rw [if_neg hc1] at h1
      have : childRel (linkStruct t p c) p1 c1 :=
        (linkStruct_childRel p1 c1).mpr (Or.inl (consist_childRel_of_paRel hc h1))
      exact this
  · intro a n c1 hn hmem
    have hcr : childRel (linkStruct t p c) a c1 := ⟨n, hn, hmem⟩
    rw [linkStruct_childRel] at hcr
    rw [linkStruct_parent_map]
    rcases hcr with hcr | ⟨hap, hbc, _⟩
    · have := consist_paRel_of_childRel hc hcr
      by_cases hc1 : c1 = c
      · subst hc1
        rw [this] at hpm; cases hpm
      · rw [if_neg hc1]; exact this
    · subst hap; subst hbc
      rw [if_pos rfl]

theorem keysExist_linkStruct {t : Tree} (hk : KeysExist t) {p c : Nat}
    (hcex : (t.nodes c).isSome) : KeysExist (linkStruct t p c) := by
  intro c1 p1 h1
  rw [linkStruct_parent_map] at h1
  rw [linkStruct_nodes_isSome]
  by_cases hc1 : c1 = c
  · subst hc1; exact hcex
  · rw [if_neg hc1] at h1
    exact hk c1 p1 h1

theorem detachStruct_parent_map (t : Tree) (x : Nat) :
    (detachStruct t x).parent_map = t.parent_map := by
  unfold detachStruct
  split
  · rw [modifyNode_parent_map]
  · rfl

theorem moveStruct_parent_map (t : Tree) (x y j : Nat) :
    (moveStruct t x y).parent_map j = if j = x then some y else t.parent_map j := by
  unfold moveStruct
  rw [setParent_parent_map, modifyNode_parent_map, detachStruct_parent_map]

theorem detachStruct_nodes_isSome (t : Tree) (x j : Nat) :
    ((detachStruct t x).nodes j).isSome = (t.nodes j).isSome := by
  unfold detachStruct
  split
  · rw [modifyNode_nodes]
    split
    · cases hn : t.nodes _ <;> simp_all
    · rfl
  · rfl

theorem moveStruct_nodes_isSome (t : Tree) (x y j : Nat) :
    ((moveStruct t x y).nodes j).isSome = (t.nodes j).isSome := by
  unfold moveStruct
  rw [setParent_nodes, modifyNode_nodes]
  split
  case isTrue hj =>
    subst hj
    rw [← detachStruct_nodes_isSome t x]
    cases (detachStruct t x).nodes j <;> simp
  case isFalse hj => exact detachStruct_nodes_isSome t x j

/-- Membership in a child set after the structural part of `move_subtree`,
on a consistent state: `x` is a child exactly of `y`, and all other
memberships are untouched. -/
theorem moveStruct_mem_children {t : Tree} (hc : Consist t) {x y a : Nat} (b : Nat)
    {m : TreeNode} (hm : (moveStruct t x y).nodes a = some m) :
    ∃ n, t.nodes a = some n ∧
      (b ∈ m.children ↔ (if b = x then a = y else b ∈ n.children)) := by
  unfold moveStruct detachStruct at hm
  rw [setParent_nodes, modifyNode_nodes] at hm
  by_cases hay : a = y
  · subst hay
    rw [if_pos rfl] at hm
    cases hpm : t.parent_map x with
    | none =>
      simp only [hpm] at hm
      cases hn : t.nodes a with
      | none => simp only [hn, Option.map] at hm; cases hm
      | some n =>
        simp only [hn, Option.map] at hm
        injection hm with hm
        subst hm
        refine ⟨n, rfl, ?_⟩
        by_cases hbx : b = x
        · subst hbx
          simp [Finset.mem_insert]
        · simp [hbx, Finset.mem_insert]
    | some p0 =>
      simp only [hpm, modifyNode_nodes] at hm
      by_cases hyp : a = p0
      · rw [if_pos hyp] at hm
        subst hyp
        cases hn : t.nodes a with
        | none => simp only [hn, Option.map] at hm; cases hm
        | some n =>
          simp only [hn, Option.map] at hm
          injection hm with hm
          subst hm
          refine ⟨n, rfl, ?_⟩
          by_cases hbx : b = x
          · subst hbx
            simp [Finset.mem_insert]
          · simp [hbx, Finset.mem_insert, Finset.mem_erase]
      · rw [if_neg hyp] at hm
        cases hn : t.nodes a with
        | none => simp only [hn, Option.map] at hm; cases hm
        | some n =>
          simp only [hn, Option.map] at hm
          injection hm with hm
          subst hm
          refine ⟨n, rfl, ?_⟩
          by_cases hbx : b = x
          · subst hbx
            simp [Finset.mem_insert]
          · simp [hbx, Finset.mem_insert]
  · rw [if_neg hay] at hm
    cases hpm : t.parent_map x with
    | none =>
      simp only [hpm] at hm
      refine ⟨m, hm, ?_⟩
      by_cases hbx : b = x
      · subst hbx
        simp only [if_pos rfl]
        constructor
        · intro hmem
          have h2 := hc.2 a m b hm hmem
          rw [hpm] at h2
          cases h2
        · intro hcontra; exact absurd hcontra hay
      · simp [hbx]
    | some p0 =>
      simp only [hpm, modifyNode_nodes] at hm
      by_cases hap : a = p0
      · rw [if_pos hap] at hm
        subst hap
        cases hn : t.nodes a with
        | none => simp only [hn, Option.map] at hm; cases hm
        | some n =>
          simp only [hn, Option.map] at hm
          injection hm with hm
          subst hm
          refine ⟨n, rfl, ?_⟩
          by_cases hbx : b = x
          · subst hbx
            simp only [if_pos rfl, Finset.mem_erase]
            constructor
            · rintro ⟨hne, _⟩; exact absurd rfl hne
            · intro hcontra; exact absurd hcontra hay
          · simp [hbx, Finset.mem_erase]
      · rw [if_neg hap] at hm
        refine ⟨m, hm, ?_⟩
        by_cases hbx : b = x
        · subst hbx
          simp only [if_pos rfl]
          constructor
          · intro hmem
            have h2 := hc.2 a m b hm hmem
            rw [hpm] at h2
            injection h2 with h2
            exact absurd h2.symm hap
          · intro hcontra; exact absurd hcontra hay
        · simp [hbx]

/-- The child relation after the structural part of `move_subtree`. -/
theorem moveStruct_childRel {t : Tree} (hc : Consist t) {x y : Nat}
    (hy : (t.nodes y).isSome) (a b : Nat) :
    childRel (moveStruct t x y) a b ↔ (if b = x then a = y else childRel t a b) := by
  constructor
  · rintro ⟨m, hm, hb⟩
    obtain ⟨n, hn, hiff⟩ := moveStruct_mem_children hc b hm
    by_cases hbx : b = x
    · rw [if_pos hbx]
      have h3 := hiff.mp hb
      rw [if_pos hbx] at h3
      exact h3
    · rw [if_neg hbx]
      have h3 := hiff.mp hb
      rw [if_neg hbx] at h3
      exact ⟨n, hn, h3⟩
  · intro hb
    by_cases hbx : b = x
    · rw [if_pos hbx] at hb
      cases hmy : (moveStruct t x y).nodes a with
      | none =>
        have hpres := moveStruct_nodes_isSome t x y a
        rw [hmy] at hpres
        rw [hb] at hpres
        cases hys : t.nodes y with
        | none => rw [hys] at hy; cases hy
        | some ny => rw [hys] at hpres; cases hpres
      | some m =>
        obtain ⟨n, hn, hiff⟩ := moveStruct_mem_children hc b hmy
        refine ⟨m, hmy, hiff.mpr ?_⟩
        rw [if_pos hbx]
        exact hb
    · rw [if_neg hbx] at hb
      obtain ⟨n, hn, hmem⟩ := hb
      cases hmy : (moveStruct t x y).nodes a with
      | none =>
        have hpres := moveStruct_nodes_isSome t x y a
        rw [hmy, hn] at hpres
        cases hpres
      | some m =>
        obtain ⟨n2, hn2, hiff⟩ := moveStruct_mem_children hc b hmy
        rw [hn] at hn2
        injection hn2 with hn2
        subst hn2
        refine ⟨m, hmy, hiff.mpr ?_⟩
        rw [if_neg hbx]
        exact hmem

theorem consist_moveStruct {t : Tree} (hc : Consist t) {x y : Nat}
    (hx : (t.nodes x).isSome) (hy : (t.nodes y).isSome) :
    Consist (moveStruct t x y) := by
  constructor
  · intro c1 p1 h1
    rw [moveStruct_parent_map] at h1
    by_cases hc1 : c1 = x
    · rw [if_pos hc1] at h1
      injection h1 with h1
      subst h1
      subst hc1
      refine (moveStruct_childRel hc hy y c1).mpr ?_
      simp
    · rw [if_neg hc1] at h1
      exact (moveStruct_childRel hc hy p1 c1).mpr
        (by rw [if_neg hc1]; exact consist_childRel_of_paRel hc h1)
  · intro a n c1 hn hmem
    have hcr : childRel (moveStruct t x y) a c1 := ⟨n, hn, hmem⟩
    rw [moveStruct_childRel hc hy] at hcr
    rw [moveStruct_parent_map]
    by_cases hc1 : c1 = x
    · subst hc1
      rw [if_pos rfl] at hcr
      rw [if_pos rfl, hcr]
    · rw [if_neg hc1] at hcr
      rw [if_neg hc1]
      exact consist_paRel_of_childRel hc hcr

theorem keysExist_moveStruct {t : Tree} (hk : KeysExist t) {x y : Nat}
    (hx : (t.nodes x).isSome) : KeysExist (moveStruct t x y) := by
  intro c1 p1 h1
  rw [moveStruct_parent_map] at h1
  rw [moveStruct_nodes_isSome]
  by_cases hc1 : c1 = x
  · subst hc1; exact hx
  · rw [if_neg hc1] at h1
    exact hk c1 p1 h1

/-! ### The ancestor-chain walk (`lib.rs` `is_descendant`) -/

/-- A `some true` answer of the walk exhibits a parent-chain path. -/
theorem isDescendantGo_true {t : Tree} {a : Nat} :
    ∀ fuel cur, isDescendantGo t a fuel cur = some true →
      Relation.TransGen (paRel t) cur a := by
  intro fuel
  induction fuel with
  | zero => intro cur h; cases h
  | succ fuel ih =>
    intro cur h
    unfold isDescendantGo at h
    cases hpm : t.parent_map cur with
    | none => simp only [hpm] at h; cases h
    | some q =>
      simp only [hpm] at h
      by_cases hq : q = a
      · subst hq
        exact Relation.TransGen.single hpm
      · rw [if_neg hq] at h
        exact Relation.TransGen.head hpm (ih q h)

/-- A `some false` answer of the walk refutes any parent-chain path:
the chain from `cur` is unique (the parent map is a function) and was
walked to its root. -/
theorem isDescendantGo_false {t : Tree} {a : Nat} :
    ∀ fuel cur, isDescendantGo t a fuel cur = some false →
      ¬ Relation.TransGen (paRel t) cur a := by
  intro fuel
  induction fuel with
  | zero => intro cur h; cases h
  | succ fuel ih =>
    intro cur h hpath
    unfold isDescendantGo at h
    cases hpm : t.parent_map cur with
    | none =>
      obtain ⟨z, hz, _⟩ := (Relation.TransGen.head'_iff).mp hpath
      unfold paRel at hz
      rw [hpm] at hz; cases hz
    | some q =>
      simp only [hpm] at h
      by_cases hq : q = a
      · rw [if_pos hq] at h; cases h
      · rw [if_neg hq] at h
        obtain ⟨z, hz, hrtg⟩ := (Relation.TransGen.head'_iff).mp hpath
        unfold paRel at hz
        rw [hpm] at hz
        injection hz with hz
        subst hz
        rcases Relation.reflTransGen_iff_eq_or_transGen.mp hrtg with he | ht
        · exact hq he.symm
        · exact ih q h ht

/-! ### Linearity of the parent chain and sibling subtree disjointness -/

theorem paRel_functional {t : Tree} {a b c : Nat} (h1 : paRel t a b) (h2 : paRel t a c) :
    b = c := by
  unfold paRel at h1 h2
  rw [h1] at h2
  injection h2

theorem reflTransGen_paRel_iff_childRel {t : Tree} (hc : Consist t) {a b : Nat} :
    Relation.ReflTransGen (paRel t) a b ↔ Relation.ReflTransGen (childRel t) b a := by
  constructor
  · intro h
    induction h with
    | refl => exact Relation.ReflTransGen.refl
    | tail _ h2 ih => exact Relation.ReflTransGen.head (consist_childRel_of_paRel hc h2) ih
  · intro h
    induction h with
    | refl => exact Relation.ReflTransGen.refl
    | tail _ h2 ih => exact Relation.ReflTransGen.head (consist_paRel_of_childRel hc h2) ih

/-- Two upward chains from the same node are comparable: the parent map is
functional, so ancestors of a node form a single chain. -/
theorem rtg_paRel_linear {t : Tree} {a : Nat} :
    ∀ {z b : Nat}, Relation.ReflTransGen (paRel t) z a →
      Relation.ReflTransGen (paRel t) z b →
      Relation.ReflTransGen (paRel t) a b ∨ Relation.ReflTransGen (paRel t) b a := by
  intro z b h1
  induction h1 using Relation.ReflTransGen.head_induction_on with
  | refl => intro h2; exact Or.inl h2
  | @head u v step htail ih =>
    intro h2
    rcases Relation.ReflTransGen.cases_head h2 with he | ⟨w, hw, hwb⟩
    · subst he
      exact Or.inr (Relation.ReflTransGen.head step htail)
    · have hwv : w = v := paRel_functional hw step
      subst hwv
      exact ih hwb

/-- Subtrees of two distinct children of the same node are disjoint
(on a consistent, acyclic state). -/
theorem sibling_subtrees_disjoint {t : Tree} (hc : Consist t) (ha : ChildAcyclic t)
    {n c c' z : Nat} (h1 : childRel t n c) (h2 : childRel t n c') (hne : c ≠ c')
    (hz1 : inSubtree t c z) (hz2 : inSubtree t c' z) : False := by
  have hpa : ParentAcyclic t := parentAcyclic_of_childAcyclic hc ha
  have key : ∀ {d d' : Nat}, childRel t n d → childRel t n d' → d ≠ d' →
      Relation.ReflTransGen (paRel t) d d' → False := by
    intro d d' hd hd' hdd hchain
    have hTd : Relation.TransGen (paRel t) d d' := by
      rcases Relation.reflTransGen_iff_eq_or_transGen.mp hchain with he | ht
      · exact absurd he.symm hdd
      · exact ht
    obtain ⟨w, hw, hrtg⟩ := (Relation.TransGen.head'_iff).mp hTd
    have hwn : n = w := (paRel_functional hw (consist_paRel_of_childRel hc hd)).symm
    subst hwn
    have hd'pa : paRel t d' n := consist_paRel_of_childRel hc hd'
    rcases Relation.reflTransGen_iff_eq_or_transGen.mp hrtg with he | ht
    · subst he
      exact hpa d' (Relation.TransGen.single hd'pa)
    · exact hpa d' (Relation.TransGen.head hd'pa ht)
  have hu1 : Relation.ReflTransGen (paRel t) z c :=
    (reflTransGen_paRel_iff_childRel hc).mpr hz1
  have hu2 : Relation.ReflTransGen (paRel t) z c' :=
    (reflTransGen_paRel_iff_childRel hc).mpr hz2
  rcases rtg_paRel_linear hu1 hu2 with h | h
  · exact key h1 h2 hne h
  · exact key h2 h1 (Ne.symm hne) h

/-! ### Acyclicity across the structural mutations -/

/-- If linking `p → c` creates a child-relation cycle, then the new child
`c` itself lies on a cycle (so `update_tags` rooted at `c` diverges). -/
theorem linkStruct_cycle {t : Tree} (ha : ChildAcyclic t) {p c : Nat}
    (hp : (t.nodes p).isSome) (hcyc : ¬ ChildAcyclic (linkStruct t p c)) :
    Relation.TransGen (childRel (linkStruct t p c)) c c := by
  simp only [ChildAcyclic, not_forall, not_not] at hcyc
  obtain ⟨k, hk⟩ := hcyc
  have hsub : ∀ a b, childRel (linkStruct t p c) a b →
      childRel t a b ∨ (a = p ∧ b = c) := by
    intro a b hab
    rcases (linkStruct_childRel a b).mp hab with h | ⟨h1, h2, _⟩
    · exact Or.inl h
    · exact Or.inr ⟨h1, h2⟩
  rcases transGen_subEdge hsub hk with hl | ⟨h1, h2⟩
  · exact absurd hl (ha k)
  · have hmono : ∀ a b, childRel t a b → childRel (linkStruct t p c) a b := by
      intro a b hab
      exact (linkStruct_childRel a b).mpr (Or.inl hab)
    have h2' : Relation.ReflTransGen (childRel (linkStruct t p c)) c k :=
      Relation.ReflTransGen.mono hmono h2
    have hedge : childRel (linkStruct t p c) p c :=
      (linkStruct_childRel p c).mpr (Or.inr ⟨rfl, rfl, hp⟩)
    exact Relation.TransGen.tail' (h2'.trans h1) hedge

/-- The parent relation after the structural part of `move_subtree`. -/
theorem moveStruct_paRel {t : Tree} {x y : Nat} (j q : Nat) :
    paRel (moveStruct t x y) j q ↔ (if j = x then q = y else paRel t j q) := by
  unfold paRel
  rw [moveStruct_parent_map]
  by_cases hj : j = x
  · subst hj
    rw [if_pos rfl, if_pos rfl]
    constructor
    · intro h; injection h with h; exact h.symm
    · intro h; rw [h]
  · simp [hj]

/-- The structural part of `move_subtree` preserves acyclicity provided the
guard held: the new parent `y` is distinct from `x` and not a descendant of
`x` along the parent chain. -/
theorem moveStruct_childAcyclic {t : Tree} (hc : Consist t) (ha : ChildAcyclic t)
    {x y : Nat} (hxy : x ≠ y) (hx : (t.nodes x).isSome) (hy : (t.nodes y).isSome)
    (hguard : ¬ Relation.TransGen (paRel t) y x) :
    ChildAcyclic (moveStruct t x y) := by
  have hpa : ParentAcyclic t := parentAcyclic_of_childAcyclic hc ha
  have hc3 : Consist (moveStruct t x y) := consist_moveStruct hc hx hy
  intro k hk
  have hk2 : Relation.TransGen (paRel (moveStruct t x y)) k k :=
    (transGen_paRel_iff_childRel hc3).mpr hk
  have hsub : ∀ a b, paRel (moveStruct t x y) a b → paRel t a b ∨ (a = x ∧ b = y) := by
    intro a b hab
    rw [moveStruct_paRel] at hab
    by_cases hax : a = x
    · rw [if_pos hax] at hab
      exact Or.inr ⟨hax, hab⟩
    · rw [if_neg hax] at hab
      exact Or.inl hab
  have haux : ∀ u, Relation.ReflTransGen (paRel (moveStruct t x y)) u x →
      u = x ∨ Relation.TransGen (paRel t) u x := by
    intro u hu
    rcases Relation.reflTransGen_iff_eq_or_transGen.mp hu with he | ht
    · exact Or.inl he.symm
    · rcases transGen_subEdge hsub ht with hl2 | ⟨_, h4⟩
      · exact Or.inr hl2
      · rcases Relation.reflTransGen_iff_eq_or_transGen.mp h4 with he2 | ht2
        · exact absurd he2 hxy
        · exact absurd ht2 hguard
  rcases transGen_subEdge hsub hk2 with hl | ⟨h1, h2⟩
  · exact hpa k hl
  · rcases haux k h1 with he | ht
    · subst he
      rcases Relation.reflTransGen_iff_eq_or_transGen.mp h2 with he2 | ht2
      · exact hxy he2
      · exact hguard ht2
    · exact hguard (Relation.TransGen.trans_right h2 ht)

/-! ### Semantics of `update_permission` -/

theorem modifyNode_missing {t : Tree} {k : Nat} {f : TreeNode → TreeNode}
    (h : t.nodes k = none) : modifyNode t k f = t := by
  unfold modifyNode
  rw [h]

theorem permStep_missing {t : Tree} {id : Nat} (h : t.nodes id = none) :
    permStep t id = t := by
  unfold permStep
  split
  case h_2 => rfl
  case h_1 =>
    split
    case h_2 => rfl
    case h_1 =>
      split
      case isFalse => rfl
      case isTrue => exact modifyNode_missing h

theorem permOf_modify_private {t : Tree} {id : Nat} {n : TreeNode}
    (hn : t.nodes id = some n) :
    permOf (modifyNode t id (fun n => { n with permission := Permission.Private })) id =
      some Permission.Private := by
  unfold permOf
  rw [modifyNode_nodes, if_pos rfl, hn]
  rfl

/-- On a consistent state, `update_permission` rooted at a node that is
`Private`, missing, or whose recorded parent is not `Private`, changes
nothing: the early return, the missing-node fallthrough, and the
`Public`-parent branch all leave the node untouched, and the recursion
into the children inherits the same situation. -/
theorem updatePermission_noop :
    ∀ fuel (t : Tree) (id : Nat) (t' : Tree), Consist t →
      (permOf t id = some Permission.Private ∨ t.nodes id = none ∨
        (∀ p, t.parent_map id = some p → permOf t p ≠ some Permission.Private)) →
      updatePermission fuel t id = some t' → t' = t := by
  intro fuel
  induction fuel with
  | zero => intro t id t' _ _ h; cases h
  | succ fuel ih =>
    intro t id t' hc hcond h
    simp only [updatePermission] at h
    split at h
    · injection h with h
      exact h.symm
    case isFalse hpriv =>
      split at h
      case h_1 node hnode =>
        rcases hcond with hc1 | hc2 | hc3
        · exact absurd hc1 hpriv
        · have := (permStep_evolve t id).1.nodes_none hc2
          rw [this] at hnode; cases hnode
        · have hps : permStep t id = t := permStep_of_not_private hc3
          rw [hps] at h hnode
          have hlist : ∀ cs, (∀ c, c ∈ cs → childRel t id c) →
              ∀ t'', runList (fun u c => updatePermission fuel u c) t cs = some t'' →
                t'' = t := by
            intro cs
            induction cs with
            | nil =>
              intro _ t'' hr
              rw [runList_nil] at hr
              injection hr with hr
              exact hr.symm
            | cons c cs ihcs =>
              intro hcs t'' hr
              rw [runList_cons] at hr
              cases hf : updatePermission fuel t c with
              | none => rw [hf] at hr; cases hr
              | some u2 =>
                rw [hf] at hr
                have hu2 : u2 = t := by
                  refine ih t c u2 hc ?_ hf
                  right; right
                  intro p hp
                  have hpc : paRel t c id :=
                    consist_paRel_of_childRel hc (hcs c (List.mem_cons_self c cs))
                  have hpid : p = id := paRel_functional hp hpc
                  subst hpid
                  exact hpriv
                rw [hu2] at hr
                exact ihcs (fun c' hc' => hcs c' (List.mem_cons_of_mem c hc')) t'' hr
          exact hlist (sortKeys node.children)
            (fun c hcm => ⟨node, hnode, mem_sortKeys.mp hcm⟩) t' h
      case h_2 hnode =>
        injection h with h
        rcases hcond with hc1 | hc2 | hc3
        · exact absurd hc1 hpriv
        · rw [← h]; exact permStep_missing hc2
        · rw [← h]; exact permStep_of_not_private hc3

/-- On a consistent, acyclic state whose subtree below `id` satisfies the
private-closure invariant, `update_permission id` with a `Private` parent
makes the entire subtree of `id` `Private`. -/
theorem updatePermission_private :
    ∀ fuel (t : Tree) (id : Nat) (t' : Tree),
      Consist t → ChildAcyclic t → KeysExist t →
      (∀ a b, inSubtree t id a → permOf t a = some Permission.Private →
        childRel t a b → permOf t b = some Permission.Private) →
      (t.nodes id).isSome →
      (∃ p, t.parent_map id = some p ∧ permOf t p = some Permission.Private) →
      updatePermission fuel t id = some t' →
      ∀ k, inSubtree t id k → permOf t' k = some Permission.Private := by
  intro fuel
  induction fuel with
  | zero => intro t id t' _ _ _ _ _ _ h; cases h
  | succ fuel ih =>
    intro t id t' hc ha hk hdc hex hpar h
    simp only [updatePermission] at h
    split at h
    case isTrue hpriv =>
      injection h with h
      subst h
      intro k hik
      induction hik with
      | refl => exact hpriv
      | tail hab hbc ihk => exact hdc _ _ hab ihk hbc
    case isFalse hpriv =>
      obtain ⟨p, hp, hppriv⟩ := hpar
      obtain ⟨n0, hn0⟩ := Option.isSome_iff_exists.mp hex
      have hps : permStep t id =
          modifyNode t id (fun n => { n with permission := Permission.Private }) :=
        permStep_of_private hp hppriv
      have hse1 : StructEq t (permStep t id) := (permStep_evolve t id).1
      have hpriv1 : permOf (permStep t id) id = some Permission.Private := by
        rw [hps]; exact permOf_modify_private hn0
      split at h
      case h_2 hnode =>
        -- impossible: the node exists
        have := hse1.nodes_some hn0
        obtain ⟨m, hm, _⟩ := this
        rw [hm] at hnode; cases hnode
      case h_1 node hnode =>
        obtain ⟨n1, hn1, _, hch⟩ := hse1.symm.nodes_some hnode
        rw [hn0] at hn1
        injection hn1 with hn1
        subst hn1
        -- the big fold invariant
        have hlist : ∀ cs u, StructEq t u →
            permOf u id = some Permission.Private →
            (∀ c, c ∈ cs → childRel t id c) →
            (∀ a, permOf t a = some Permission.Private →
              permOf u a = some Permission.Private) →
            (∀ a, permOf u a = some Permission.Private →
              permOf t a = some Permission.Private ∨ a = id ∨
              (∀ b, inSubtree t a b → permOf u b = some Permission.Private)) →
            ∀ t'', runList (fun u c => updatePermission fuel u c) u cs = some t'' →
              (StructEq t t'' ∧ permOf t'' id = some Permission.Private ∧
               (∀ a, permOf t a = some Permission.Private →
                 permOf t'' a = some Permission.Private) ∧
               (∀ a, permOf t'' a = some Permission.Private →
                 permOf t a = some Permission.Private ∨ a = id ∨
                 (∀ b, inSubtree t a b → permOf t'' b = some Permission.Private)) ∧
               (∀ c, c ∈ cs → ∀ k, inSubtree t c k →
                 permOf t'' k = some Permission.Private)) := by
          intro cs
          induction cs with
          | nil =>
            intro u hse hpid hcs hmono hinv t'' hr
            rw [runList_nil] at hr
            injection hr with hr
            subst hr
            exact ⟨hse, hpid, hmono, hinv, fun c hcm => absurd hcm (List.not_mem_nil c)⟩
          | cons c cs ihcs =>
            intro u hse hpid hcs hmono hinv t'' hr
            rw [runList_cons] at hr
            cases hf : updatePermission fuel u c with
            | none => rw [hf] at hr; cases hr
            | some u2 =>
              rw [hf] at hr
              have hcridc : childRel t id c := hcs c (List.mem_cons_self c cs)
              have hpac : paRel t c id := consist_paRel_of_childRel hc hcridc
              -- preconditions for the recursive call on `c` in state `u`
              have hcu : Consist u := hse.consist hc
              have hau : ChildAcyclic u := hse.childAcyclic ha
              have hku : KeysExist u := hse.keysExist hk
              have hexcu : (u.nodes c).isSome := by
                have : (t.nodes c).isSome = true := hk c id hpac
                cases hex2 : t.nodes c with
                | none => rw [hex2] at this; cases this
                | some nc =>
                  obtain ⟨m, hm, _⟩ := hse.nodes_some hex2
                  rw [hm]; rfl
              have hparc : ∃ q, u.parent_map c = some q ∧
                  permOf u q = some Permission.Private := by
                refine ⟨id, ?_, hpid⟩
                rw [← hse.1]
                exact hpac
              have hdcc : ∀ a b, inSubtree u c a →
                  permOf u a = some Permission.Private → childRel u a b →
                  permOf u b = some Permission.Private := by
                intro a b hia hpa hab
                have hia' : inSubtree t c a := (hse.inSubtree_iff c a).mp hia
                have hab' : childRel t a b := (hse.childRel_iff a b).mp hab
                rcases hinv a hpa with h1 | h2 | h3
                · have hiia : inSubtree t id a := Relation.ReflTransGen.head hcridc hia'
                  exact hmono b (hdc a b hiia h1 hab')
                · subst h2
                  exact absurd (Relation.TransGen.head' hcridc hia') (ha a)
                · exact h3 b (Relation.ReflTransGen.single hab')
              have hall := ih u c u2 hcu hau hku hdcc hexcu hparc hf
              have hev := updatePermission_evolve fuel u c u2 hf
              have hse2 : StructEq t u2 := structEq_trans hse hev.1
              -- new invariants in u2
              have hmono2 : ∀ a, permOf t a = some Permission.Private →
                  permOf u2 a = some Permission.Private :=
                fun a hpa => hev.2.2 a (hmono a hpa)
              have hinv2 : ∀ a, permOf u2 a = some Permission.Private →
                  permOf t a = some Permission.Private ∨ a = id ∨
                  (∀ b, inSubtree t a b → permOf u2 b = some Permission.Private) := by
                intro a hpa
                by_cases hpu : permOf u a = some Permission.Private
                · rcases hinv a hpu with h1 | h2 | h3
                  · exact Or.inl h1
                  · exact Or.inr (Or.inl h2)
                  · exact Or.inr (Or.inr (fun b hb => hev.2.2 b (h3 b hb)))
                · -- `a` was privatised by the call on `c`: it lies in `c`'s subtree
                  have hin : inSubtree u c a := by
                    by_contra hno
                    exact hpu ((updatePermission_frame fuel u c u2 hf a hno) ▸ hpa)
                  have hin' : inSubtree t c a := (hse.inSubtree_iff c a).mp hin
                  refine Or.inr (Or.inr ?_)
                  intro b hb
                  refine hall b ?_
                  exact (hse.inSubtree_iff c b).mpr (hin'.trans hb)
              have := ihcs u2 hse2 (hev.2.2 id hpid)
                (fun c' hc' => hcs c' (List.mem_cons_of_mem c hc')) hmono2 hinv2 t'' hr
              obtain ⟨hfse, hfid, hfmono, hfinv, hfrest⟩ := this
              refine ⟨hfse, hfid, hfmono, hfinv, ?_⟩
              intro c' hcm k hik
              rcases List.mem_cons.mp hcm with hceq | hcin
              · subst hceq
                -- the head child: privatised by its call, kept by the tail
                have hk2 : permOf u2 k = some Permission.Private :=
                  hall k ((hse.inSubtree_iff c' k).mpr hik)
                have hmono3 : PermEvolve u2 t'' :=
                  runList_rel permEvolve_refl (fun a b c => permEvolve_trans)
                    (fun u c u' hu => updatePermission_evolve fuel u c u' hu) _ _ _ hr
                exact hmono3.2.2 k hk2
              · exact hfrest c' hcin k hik
        -- apply the fold lemma to the initial state `permStep t id`
        have hmono1 : ∀ a, permOf t a = some Permission.Private →
            permOf (permStep t id) a = some Permission.Private :=
          fun a hpa => (permStep_evolve t id).2.2 a hpa
        have hinv1 : ∀ a, permOf (permStep t id) a = some Permission.Private →
            permOf t a = some Permission.Private ∨ a = id ∨
            (∀ b, inSubtree t a b → permOf (permStep t id) b = some Permission.Private) := by
          intro a hpa
          by_cases haid : a = id
          · exact Or.inr (Or.inl haid)
          · left
            rw [hps] at hpa
            rw [modifyNode_perm_frame haid] at hpa
            exact hpa
        have hcs1 : ∀ c, c ∈ sortKeys node.children → childRel t id c := by
          intro c hcm
          exact ⟨n0, hn0, hch ▸ mem_sortKeys.mp hcm⟩
        obtain ⟨hfse, hfid, _, _, hfrest⟩ :=
          hlist (sortKeys node.children) (permStep t id) hse1 hpriv1 hcs1 hmono1 hinv1 t' h
        intro k hik
        rcases Relation.ReflTransGen.cases_head hik with he | ⟨c0, hc0, hrtg⟩
        · rw [← he]
          exact hfid
        · refine hfrest c0 ?_ k hrtg
          obtain ⟨n2, hn2, hc0m⟩ := hc0
          rw [hn0] at hn2
          injection hn2 with hn2
          subst hn2
          exact mem_sortKeys.mpr (hch ▸ hc0m)

/-! ### Semantics of `update_tags` -/

theorem inheritedTags_of_parent {t : Tree} {c p : Nat} (hp : t.parent_map c = some p) :
    inheritedTags t c = tagSetOf t p := by
  unfold inheritedTags tagSetOf tagsOptOf
  simp only [hp]
  cases hn : t.nodes p with
  | none => simp [hn]
  | some n => cases ht : n.tags <;> simp [hn, ht, Option.bind]

theorem inheritedTags_of_root {t : Tree} {c : Nat} (hp : t.parent_map c = none) :
    inheritedTags t c = ∅ := by
  unfold inheritedTags
  rw [hp]

theorem tagSetOf_of_some {t : Tree} {k : Nat} {s : Finset String}
    (h : tagsOptOf t k = some s) : tagSetOf t k = s := by
  unfold tagSetOf
  rw [h]
  rfl

theorem tagStep_tagSet {t : Tree} {id : Nat} {n : TreeNode} (hn : t.nodes id = some n) :
    tagSetOf (tagStep t id) id = tagSetOf t id ∪ inheritedTags t id := by
  unfold tagStep tagSetOf tagsOptOf
  rw [modifyNode_nodes, if_pos rfl, hn]
  cases ht : n.tags with
  | some s => simp [Option.map, Option.bind, ht]
  | none =>
    by_cases hi : inheritedTags t id = ∅
    · simp [Option.map, Option.bind, ht, hi]
    · simp [Option.map, Option.bind, ht, hi]

theorem not_inSubtree_of_childRel {t : Tree} (ha : ChildAcyclic t) {id c : Nat}
    (hcr : childRel t id c) : ¬ inSubtree t c id :=
  fun h => ha id (Relation.TransGen.head' hcr h)

/-- The effect of a completed `update_tags` run: the root has absorbed the
tags inherited from its parent, and along every child edge inside the root's
subtree the child's tag set has absorbed the parent's. -/
theorem updateTags_push :
    ∀ fuel (t : Tree) (id : Nat) (t' : Tree),
      Consist t → ChildAcyclic t → KeysExist t →
      updateTags fuel t id = some t' →
      (inheritedTags t id ⊆ tagSetOf t' id) ∧
      (∀ a b, inSubtree t id a → childRel t a b → tagSetOf t' a ⊆ tagSetOf t' b) := by
  intro fuel
  induction fuel with
  | zero => intro t id t' _ _ _ h; cases h
  | succ fuel ih =>
    intro t id t' hc ha hk h
    simp only [updateTags] at h
    have hse1 : StructEq t (tagStep t id) := (tagStep_evolve t id).1
    split at h
    case h_2 hnode =>
      -- the node is missing: nothing below it, and it has no recorded parent
      injection h with h
      subst h
      have hmiss : t.nodes id = none := by
        cases hm : t.nodes id with
        | none => rfl
        | some n =>
          obtain ⟨m, hm2, _⟩ := hse1.nodes_some hm
          rw [hm2] at hnode; cases hnode
      constructor
      · cases hpm : t.parent_map id with
        | none => rw [inheritedTags_of_root hpm]; exact Finset.empty_subset _
        | some p =>
          have := hk id p hpm
          rw [hmiss] at this; cases this
      · intro a b hia hab
        rcases Relation.ReflTransGen.cases_head hia with he | ⟨c0, hc0, _⟩
        · subst he
          obtain ⟨n, hn, _⟩ := hab
          rw [hmiss] at hn; cases hn
        · obtain ⟨n, hn, _⟩ := hc0
          rw [hmiss] at hn; cases hn
    case h_1 node hnode =>
      obtain ⟨n0, hn00, _, hch⟩ := hse1.symm.nodes_some hnode
      have hidsome : (t.nodes id).isSome := by rw [hn00]; rfl
      -- the fold lemma over the children
      have hlist : ∀ cs u, StructEq t u →
          (∀ c, c ∈ cs → childRel t id c) →
          ∀ t'', runList (fun u c => updateTags fuel u c) u cs = some t'' →
            ((∀ z, (∀ c, c ∈ cs → ¬ inSubtree t c z) → tagsOptOf t'' z = tagsOptOf u z) ∧
             (∀ c, c ∈ cs → tagSetOf u id ⊆ tagSetOf t'' c) ∧
             (∀ c, c ∈ cs → ∀ a b, inSubtree t c a → childRel t a b →
               tagSetOf t'' a ⊆ tagSetOf t'' b)) := by
        intro cs
        induction cs with
        | nil =>
          intro u hse hcs t'' hr
          rw [runList_nil] at hr
          injection hr with hr
          subst hr
          exact ⟨fun z _ => rfl, fun c hcm => absurd hcm (List.not_mem_nil c),
            fun c hcm => absurd hcm (List.not_mem_nil c)⟩
        | cons c cs ihcs =>
          intro u hse hcs t'' hr
          rw [runList_cons] at hr
          cases hf : updateTags fuel u c with
          | none => rw [hf] at hr; cases hr
          | some u2 =>
            rw [hf] at hr
            have hcric : childRel t id c := hcs c (List.mem_cons_self c cs)
            have hpac : paRel t c id := consist_paRel_of_childRel hc hcric
            have hcu : Consist u := hse.consist hc
            have hau : ChildAcyclic u := hse.childAcyclic ha
            have hku : KeysExist u := hse.keysExist hk
            have hcall := ih u c u2 hcu hau hku hf
            have hev2 : TagEvolve u u2 := updateTags_evolve fuel u c u2 hf
            have hse2 : StructEq t u2 := structEq_trans hse hev2.1
            -- the inherited set of `c` in `u` is the tag set of `id` in `u`
            have hinh : inheritedTags u c = tagSetOf u id := by
              have hpmu : u.parent_map c = some id := by rw [← hse.1]; exact hpac
              exact inheritedTags_of_parent hpmu
            -- `id` lies outside the subtree of `c`, so its tags are unchanged
            have hidout : ¬ inSubtree t c id := not_inSubtree_of_childRel ha hcric
            have hidtags : tagSetOf u2 id = tagSetOf u id := by
              unfold tagSetOf
              rw [updateTags_frame fuel u c u2 hf id
                (fun hsub => hidout ((hse.inSubtree_iff c id).mp hsub))]
            have htail := ihcs u2 hse2 (fun c' hc' => hcs c' (List.mem_cons_of_mem c hc')) t'' hr
            obtain ⟨hF1, hF2, hF3⟩ := htail
            -- tags inside the subtree of `c` are not touched by the tail,
            -- unless `c` occurs again in the tail
            have hdisj : ∀ c', c' ∈ cs → c' ≠ c → ∀ z, inSubtree t c z →
                ¬ inSubtree t c' z := by
              intro c' hc' hne z hz hz'
              exact sibling_subtrees_disjoint hc ha
                (hcs c' (List.mem_cons_of_mem c hc')) hcric hne hz' hz
            refine ⟨?_, ?_, ?_⟩
            · -- frame for the whole fold
              intro z hz
              have h1 : tagsOptOf u2 z = tagsOptOf u z :=
                updateTags_frame fuel u c u2 hf z
                  (fun hsub => hz c (List.mem_cons_self c cs)
                    ((hse.inSubtree_iff c z).mp hsub))
              have h2 : tagsOptOf t'' z = tagsOptOf u2 z :=
                hF1 z (fun c' hc' => hz c' (List.mem_cons_of_mem c hc'))
              rw [h2, h1]
            · -- the parent's tags flow into every listed child
              intro c' hcm
              rcases List.mem_cons.mp hcm with hceq | hcin
              · subst hceq
                by_cases hcin2 : c' ∈ cs
                · have := hF2 c' hcin2
                  rw [hidtags] at this
                  exact this
                · have hkeep : tagsOptOf t'' c' = tagsOptOf u2 c' := by
                    refine hF1 c' ?_
                    intro c'' hc'' hsub
                    refine hdisj c'' hc'' ?_ c' Relation.ReflTransGen.refl hsub
                    intro he
                    exact hcin2 (he ▸ hc'')
                  have hroot := hcall.1
                  rw [hinh] at hroot
                  unfold tagSetOf
                  rw [hkeep]
                  exact hroot
              · exact (hidtags ▸ hF2 c' hcin : _)
            · -- downward pairs inside each listed child's subtree
              intro c' hcm a b hia hab
              rcases List.mem_cons.mp hcm with hceq | hcin
              · subst hceq
                by_cases hcin2 : c' ∈ cs
                · exact hF3 c' hcin2 a b hia hab
                · have hib : inSubtree t c' b := hia.trans (Relation.ReflTransGen.single hab)
                  have hkeepa : tagsOptOf t'' a = tagsOptOf u2 a := by
                    refine hF1 a ?_
                    intro c'' hc'' hsub
                    exact hdisj c'' hc'' (fun he => hcin2 (he ▸ hc'')) a hia hsub
                  have hkeepb : tagsOptOf t'' b = tagsOptOf u2 b := by
                    refine hF1 b ?_
                    intro c'' hc'' hsub
                    exact hdisj c'' hc'' (fun he => hcin2 (he ▸ hc'')) b hib hsub
                  have := hcall.2 a b ((hse.inSubtree_iff c' a).mpr hia)
                    ((hse.childRel_iff a b).mpr hab)
                  unfold tagSetOf
                  rw [hkeepa, hkeepb]
                  exact this
              · exact hF3 c' hcin a b hia hab
      -- assemble the main conclusion from the fold lemma
      have hcs1 : ∀ c, c ∈ sortKeys node.children → childRel t id c := by
        intro c hcm
        exact ⟨n0, hn00, hch ▸ mem_sortKeys.mp hcm⟩
      obtain ⟨hF1, hF2, hF3⟩ :=
        hlist (sortKeys node.children) (tagStep t id) hse1 hcs1 t' h
      have hstep : tagSetOf (tagStep t id) id = tagSetOf t id ∪ inheritedTags t id :=
        tagStep_tagSet hn00
      have hidfinal : tagSetOf t' id = tagSetOf (tagStep t id) id := by
        unfold tagSetOf
        rw [hF1 id ?_]
        intro c hcm hsub
        exact not_inSubtree_of_childRel ha (hcs1 c hcm) hsub
      constructor
      · rw [hidfinal, hstep]
        exact Finset.subset_union_right
      · intro a b hia hab
        rcases Relation.ReflTransGen.cases_head hia with he | ⟨c0, hc0, hrtg⟩
        · subst he
          obtain ⟨n2, hn2, hbm⟩ := hab
          rw [hn00] at hn2
          injection hn2 with hn2
          subst hn2
          have hbm2 : b ∈ sortKeys node.children := mem_sortKeys.mpr (hch ▸ hbm)
          rw [hidfinal]
          exact hF2 b hbm2
        · obtain ⟨n2, hn2, hc0m⟩ := hc0
          rw [hn00] at hn2
          injection hn2 with hn2
          subst hn2
          have hc0m2 : c0 ∈ sortKeys node.children := mem_sortKeys.mpr (hch ▸ hc0m)
          exact hF3 c0 hc0m2 a b hrtg hab

/-! ### Transferring subtree paths across one structural edit -/

/-- A reflexive-transitive `s`-path from `x0` transfers to `r` when every
`s`-step not returning to `x0` is an `r`-step and `s` has no cycles
(a step back to `x0` would close a cycle). -/
theorem rtg_transfer_no_return {α : Type} {r s : α → α → Prop} {x0 : α}
    (hacy : ∀ z, ¬ Relation.TransGen s z z)
    (hstep : ∀ u v, s u v → v ≠ x0 → r u v) :
    ∀ {a}, Relation.ReflTransGen s x0 a → Relation.ReflTransGen r x0 a := by
  intro a h
  induction h with
  | refl => exact Relation.ReflTransGen.refl
  | @tail u v hxu huv ih =>
    by_cases hv : v = x0
    · subst hv
      exact absurd (Relation.TransGen.tail' hxu huv) (hacy v)
    · exact Relation.ReflTransGen.tail ih (hstep u v huv hv)

theorem linkStruct_inSubtree_down {t : Tree} {p c : Nat}
    (ha3 : ChildAcyclic (linkStruct t p c)) {a : Nat}
    (h : inSubtree (linkStruct t p c) c a) : inSubtree t c a := by
  refine rtg_transfer_no_return ha3 ?_ h
  intro u v huv hv
  rcases (linkStruct_childRel u v).mp huv with h1 | ⟨_, h2, _⟩
  · exact h1
  · exact absurd h2 hv

theorem linkStruct_inSubtree_up {t : Tree} {p c : Nat} {root a : Nat}
    (h : inSubtree t root a) : inSubtree (linkStruct t p c) root a := by
  refine Relation.ReflTransGen.mono ?_ h
  intro u v huv
  exact (linkStruct_childRel u v).mpr (Or.inl huv)

theorem moveStruct_inSubtree_down {t : Tree} (hc : Consist t) {x y : Nat}
    (hy : (t.nodes y).isSome) (ha3 : ChildAcyclic (moveStruct t x y)) {a : Nat}
    (h : inSubtree (moveStruct t x y) x a) : inSubtree t x a := by
  refine rtg_transfer_no_return ha3 ?_ h
  intro u v huv hv
  have := (moveStruct_childRel hc hy u v).mp huv
  rw [if_neg hv] at this
  exact this

theorem moveStruct_inSubtree_up {t : Tree} (hc : Consist t) (ha : ChildAcyclic t)
    {x y : Nat} (hy : (t.nodes y).isSome) {a : Nat}
    (h : inSubtree t x a) : inSubtree (moveStruct t x y) x a := by
  refine rtg_transfer_no_return ha ?_ h
  intro u v huv hv
  refine (moveStruct_childRel hc hy u v).mpr ?_
  rw [if_neg hv]
  exact huv

/-! ### Permissions and tags across the structural edits -/

theorem linkStruct_permOf (t : Tree) (p c k : Nat) :
    permOf (linkStruct t p c) k = permOf t k := by
  have h : permOf (modifyNode t p (fun n => { n with children := insert c n.children })) k =
      permOf t k := by
    refine modifyNode_perm ?_ k
    intro n; rfl
  exact h

theorem linkStruct_tagsOptOf (t : Tree) (p c k : Nat) :
    tagsOptOf (linkStruct t p c) k = tagsOptOf t k := by
  have h : tagsOptOf (modifyNode t p (fun n => { n with children := insert c n.children })) k =
      tagsOptOf t k := by
    refine modifyNode_tags ?_ k
    intro n; rfl
  exact h

theorem detachStruct_permOf (t : Tree) (x k : Nat) :
    permOf (detachStruct t x) k = permOf t k := by
  unfold detachStruct
  split
  · refine modifyNode_perm ?_ k
    intro n; rfl
  · rfl

theorem detachStruct_tagsOptOf (t : Tree) (x k : Nat) :
    tagsOptOf (detachStruct t x) k = tagsOptOf t k := by
  unfold detachStruct
  split
  · refine modifyNode_tags ?_ k
    intro n; rfl
  · rfl

theorem moveStruct_permOf (t : Tree) (x y k : Nat) :
    permOf (moveStruct t x y) k = permOf t k := by
  have h1 : permOf (modifyNode (detachStruct t x) y
      (fun n => { n with children := insert x n.children })) k =
      permOf (detachStruct t x) k := by
    refine modifyNode_perm ?_ k
    intro n; rfl
  exact h1.trans (detachStruct_permOf t x k)

theorem moveStruct_tagsOptOf (t : Tree) (x y k : Nat) :
    tagsOptOf (moveStruct t x y) k = tagsOptOf t k := by
  have h1 : tagsOptOf (modifyNode (detachStruct t x) y
      (fun n => { n with children := insert x n.children })) k =
      tagsOptOf (detachStruct t x) k := by
    refine modifyNode_tags ?_ k
    intro n; rfl
  exact h1.trans (detachStruct_tagsOptOf t x k)

/-! ### `add_node` lookups -/

theorem add_node_nodes_fresh {t : Tree} {id : Nat} (h : t.nodes id = none)
    (permission : Permission) (j : Nat) :
    (t.add_node id permission).nodes j =
      if j = id then some ⟨id, permission, ∅, none⟩ else t.nodes j := by
  unfold Tree.add_node
  rw [h]
  rfl

theorem add_node_nodes_dup {t : Tree} {id : Nat} (h : (t.nodes id).isSome)
    (permission : Permission) : t.add_node id permission = t := by
  unfold Tree.add_node
  rw [if_pos h]

theorem add_node_parent_map (t : Tree) (id : Nat) (permission : Permission) :
    (t.add_node id permission).parent_map = t.parent_map := by
  unfold Tree.add_node
  split <;> rfl

/-! ### Divergence packaging: a cycle created by an edit kills the call -/

theorem transGen_childRel_of_structEq {t u : Tree} (hse : StructEq t u) {a b : Nat}
    (h : Relation.TransGen (childRel t) a b) : Relation.TransGen (childRel u) a b :=
  Relation.TransGen.mono (fun a b hr => (hse.childRel_iff a b).mpr hr) h

/-- If the structural part of `connect_nodes` creates a child cycle, the
subsequent `update_tags` (run on any structurally equal state) diverges. -/
theorem linkStruct_acyclic_of_tags_complete {fuel : Nat} {t : Tree} {p c : Nat}
    {t4 t' : Tree} (ha : ChildAcyclic t) (hp : (t.nodes p).isSome)
    (hse : StructEq (linkStruct t p c) t4)
    (h2 : updateTags fuel t4 c = some t') : ChildAcyclic (linkStruct t p c) := by
  by_contra hcyc
  have h3 := linkStruct_cycle ha hp hcyc
  have h4 : Relation.TransGen (childRel t4) c c := transGen_childRel_of_structEq hse h3
  rw [updateTags_cycle fuel t4 c h4] at h2
  cases h2

/-- A self-move (`node_id = new_parent_id`) that got past the guard makes
the node its own child, so the subsequent `update_tags` diverges. -/
theorem moveStruct_self_tags_diverge {fuel : Nat} {t : Tree} {x : Nat} {t4 t' : Tree}
    (hc : Consist t) (hx : (t.nodes x).isSome)
    (hse : StructEq (moveStruct t x x) t4)
    (h2 : updateTags fuel t4 x = some t') : False := by
  have hcr : childRel (moveStruct t x x) x x := by
    refine (moveStruct_childRel hc hx x x).mpr ?_
    rw [if_pos rfl]
  have h4 : Relation.TransGen (childRel t4) x x :=
    transGen_childRel_of_structEq hse (Relation.TransGen.single hcr)
  rw [updateTags_cycle fuel t4 x h4] at h2
  cases h2

/-- Tag-pointwise equality transfers the no-empty-tag-set invariant. -/
theorem noEmptyTags_of_tagsEq {t u : Tree}
    (h : ∀ k, tagsOptOf u k = tagsOptOf t k) (hn : NoEmptyTags t) : NoEmptyTags u := by
  intro k n hk hcontra
  have h1 : tagsOptOf u k = some ∅ := by
    unfold tagsOptOf
    rw [hk]
    simp only [Option.bind]
    exact hcontra
  have h2 : tagsOptOf t k = some ∅ := by rw [← h k]; exact h1
  cases hm : t.nodes k with
  | none =>
    unfold tagsOptOf at h2
    rw [hm] at h2
    cases h2
  | some m =>
    unfold tagsOptOf at h2
    rw [hm] at h2
    exact hn k m hm h2

/-! ### Private-closure preservation per operation -/

theorem privClosed_transport {t u : Tree} (hse : StructEq t u)
    (hperm : ∀ k, permOf u k = permOf t k) (hp : PrivClosed t) : PrivClosed u := by
  intro a b hpa htg
  rw [hperm a] at hpa
  rw [hperm b]
  refine hp a b hpa ?_
  exact Relation.TransGen.mono (fun a b hr => (hse.childRel_iff a b).mp hr) htg

theorem both_exist_of_guard {o1 o2 : Bool} (hB : ¬((!o1 || !o2) = true)) :
    o1 = true ∧ o2 = true := by
  cases o1 <;> cases o2 <;> simp_all

theorem privClosed_add_tag {fuel : Nat} {t t' : Tree} {id : Nat} {tag : String}
    (hp : PrivClosed t) (h : Tree.add_tag_to_node fuel t id tag = some t') :
    PrivClosed t' := by
  unfold Tree.add_tag_to_node at h
  split at h
  case h_2 =>
    injection h with h
    rw [← h]
    exact hp
  case h_1 n hn =>
    set f : TreeNode → TreeNode := fun n =>
      match n.tags with
      | some tags => { n with tags := some (insert tag tags) }
      | none => { n with tags := some {tag} } with hf
    have hse1 : StructEq t (modifyNode t id f) := by
      refine modifyNode_structEq ?_
      intro n1
      rw [hf]
      cases hn1 : n1.tags <;> simp [hn1, nodeShape]
    have hperm1 : ∀ k, permOf (modifyNode t id f) k = permOf t k := by
      intro k
      refine modifyNode_perm ?_ k
      intro n1
      rw [hf]
      cases hn1 : n1.tags <;> simp [hn1]
    have hp1 : PrivClosed (modifyNode t id f) := privClosed_transport hse1 hperm1 hp
    have hev := updateTags_evolve fuel (modifyNode t id f) id t' h
    exact privClosed_transport hev.1 hev.2.1 hp1

theorem privClosed_connect {fuel : Nat} {t t' : Tree} {p c : Nat}
    (hc : Consist t) (ha : ChildAcyclic t) (hk : KeysExist t) (hp : PrivClosed t)
    (h : Tree.connect_nodes fuel t p c = some t') : PrivClosed t' := by
  unfold Tree.connect_nodes at h
  split at h
  case isTrue =>
    injection h with h
    rw [← h]; exact hp
  case isFalse hB =>
    obtain ⟨hpex, hcex⟩ := both_exist_of_guard hB
    split at h
    case isTrue =>
      injection h with h
      rw [← h]; exact hp
    case isFalse hpc =>
      split at h
      case isTrue =>
        injection h with h
        rw [← h]; exact hp
      case isFalse hpm =>
        have hpmnone : t.parent_map c = none := by
          cases hq : t.parent_map c with
          | none => rfl
          | some q => rw [hq] at hpm; exact absurd rfl hpm
        cases hup : updatePermission fuel (linkStruct t p c) c with
        | none => rw [hup] at h; cases h
        | some t4 =>
          rw [hup] at h
          simp only [Option.bind] at h
          have hev4 := updatePermission_evolve fuel (linkStruct t p c) c t4 hup
          have ha3 : ChildAcyclic (linkStruct t p c) :=
            linkStruct_acyclic_of_tags_complete ha hpex hev4.1 h
          have hc3 : Consist (linkStruct t p c) := consist_linkStruct hc hpex hpmnone
          have hk3 : KeysExist (linkStruct t p c) := keysExist_linkStruct hk hcex
          have hedge : childRel (linkStruct t p c) p c :=
            (linkStruct_childRel p c).mpr (Or.inr ⟨rfl, rfl, hpex⟩)
          have hev' := updateTags_evolve fuel t4 c t' h
          have hse' : StructEq (linkStruct t p c) t' := structEq_trans hev4.1 hev'.1
          have hsub : ∀ u v, childRel (linkStruct t p c) u v →
              childRel t u v ∨ (u = p ∧ v = c) := by
            intro u v huv
            rcases (linkStruct_childRel u v).mp huv with h1 | ⟨h1, h2, _⟩
            · exact Or.inl h1
            · exact Or.inr ⟨h1, h2⟩
          by_cases hpp : permOf t p = some Permission.Private
          · -- private parent: the whole subtree of `c` is privatised
            have hdc : ∀ a b, inSubtree (linkStruct t p c) c a →
                permOf (linkStruct t p c) a = some Permission.Private →
                childRel (linkStruct t p c) a b →
                permOf (linkStruct t p c) b = some Permission.Private := by
              intro a b hia hpa hab
              rw [linkStruct_permOf] at hpa
              rcases (linkStruct_childRel a b).mp hab with hr | ⟨hap, hbc, _⟩
              · rw [linkStruct_permOf]
                exact hp a b hpa (Relation.TransGen.single hr)
              · subst hap; subst hbc
                exact absurd (Relation.TransGen.tail' hia hedge) (ha3 b)
            have hexc : ((linkStruct t p c).nodes c).isSome := by
              rw [linkStruct_nodes_isSome]; exact hcex
            have hparc : ∃ q, (linkStruct t p c).parent_map c = some q ∧
                permOf (linkStruct t p c) q = some Permission.Private :=
              ⟨p, by rw [linkStruct_parent_map, if_pos rfl],
                by rw [linkStruct_permOf]; exact hpp⟩
            have hall := updatePermission_private fuel (linkStruct t p c) c t4
              hc3 ha3 hk3 hdc hexc hparc hup
            intro a b hpa htg
            rw [hev'.2.1 a] at hpa
            rw [hev'.2.1 b]
            have htg3 : Relation.TransGen (childRel (linkStruct t p c)) a b :=
              Relation.TransGen.mono (fun u v hr => (hse'.childRel_iff u v).mp hr) htg
            rcases transGen_subEdge hsub htg3 with hl | ⟨hpre, hsuf⟩
            · by_cases hta : permOf t a = some Permission.Private
              · have hb := hp a b hta hl
                exact hev4.2.2 b (by rw [linkStruct_permOf]; exact hb)
              · have hin : inSubtree (linkStruct t p c) c a := by
                  by_contra hno
                  rw [updatePermission_frame fuel (linkStruct t p c) c t4 hup a hno,
                    linkStruct_permOf] at hpa
                  exact hta hpa
                have hinb : inSubtree (linkStruct t p c) c b := by
                  have h1 : inSubtree t c a := linkStruct_inSubtree_down ha3 hin
                  exact linkStruct_inSubtree_up (h1.trans hl.to_reflTransGen)
                exact hall b hinb
            · exact hall b (linkStruct_inSubtree_up hsuf)
          · -- parent not private: the run is a no-op on permissions
            have hnoop : t4 = linkStruct t p c := by
              refine updatePermission_noop fuel (linkStruct t p c) c t4 hc3 ?_ hup
              right; right
              intro q hq
              rw [linkStruct_parent_map, if_pos rfl] at hq
              injection hq with hq
              subst hq
              rw [linkStruct_permOf]
              exact hpp
            subst hnoop
            intro a b hpa htg
            rw [hev'.2.1 a, linkStruct_permOf] at hpa
            rw [hev'.2.1 b, linkStruct_permOf]
            have htg3 : Relation.TransGen (childRel (linkStruct t p c)) a b :=
              Relation.TransGen.mono (fun u v hr => (hse'.childRel_iff u v).mp hr) htg
            rcases transGen_subEdge hsub htg3 with hl | ⟨hpre, hsuf⟩
            · exact hp a b hpa hl
            · -- the path cannot cross the new edge: `p` would have to be private
              exfalso
              rcases Relation.reflTransGen_iff_eq_or_transGen.mp hpre with he | ht
              · subst he
                exact hpp hpa
              · rcases transGen_subEdge hsub ht with hl2 | ⟨_, hsuf2⟩
                · exact hpp (hp a p hpa hl2)
                · have h5 : Relation.ReflTransGen (childRel (linkStruct t p c)) c p :=
                    linkStruct_inSubtree_up hsuf2
                  exact ha3 c (Relation.TransGen.tail' h5 hedge)

theorem privClosed_move {fuel : Nat} {t t' : Tree} {x y : Nat}
    (hc : Consist t) (ha : ChildAcyclic t) (hk : KeysExist t) (hp : PrivClosed t)
    (h : Tree.move_subtree fuel t x y = some t') : PrivClosed t' := by
  unfold Tree.move_subtree at h
  split at h
  case isTrue =>
    injection h with h
    rw [← h]; exact hp
  case isFalse hB =>
    obtain ⟨hxex, hyex⟩ := both_exist_of_guard hB
    split at h
    · cases h
    case h_2 =>
      injection h with h
      rw [← h]; exact hp
    case h_3 hwalk =>
      cases hup : updatePermission fuel (moveStruct t x y) x with
      | none => rw [hup] at h; cases h
      | some t4 =>
        rw [hup] at h
        simp only [Option.bind] at h
        have hev4 := updatePermission_evolve fuel (moveStruct t x y) x t4 hup
        by_cases hxy : x = y
        · subst hxy
          exact absurd h (fun h2 => moveStruct_self_tags_diverge hc hxex hev4.1 h2)
        · have hguard : ¬ Relation.TransGen (paRel t) y x :=
            isDescendantGo_false fuel y hwalk
          have ha3 : ChildAcyclic (moveStruct t x y) :=
            moveStruct_childAcyclic hc ha hxy hxex hyex hguard
          have hc3 : Consist (moveStruct t x y) := consist_moveStruct hc hxex hyex
          have hk3 : KeysExist (moveStruct t x y) := keysExist_moveStruct hk hxex
          have hedge : childRel (moveStruct t x y) y x := by
            refine (moveStruct_childRel hc hyex y x).mpr ?_
            rw [if_pos rfl]
          have hev' := updateTags_evolve fuel t4 x t' h
          have hse' : StructEq (moveStruct t x y) t' := structEq_trans hev4.1 hev'.1
          have hsub : ∀ u v, childRel (moveStruct t x y) u v →
              childRel t u v ∨ (u = y ∧ v = x) := by
            intro u v huv
            have h1 := (moveStruct_childRel hc hyex u v).mp huv
            by_cases hv : v = x
            · rw [if_pos hv] at h1
              exact Or.inr ⟨h1, hv⟩
            · rw [if_neg hv] at h1
              exact Or.inl h1
          by_cases hyp : permOf t y = some Permission.Private
          · have hdc : ∀ a b, inSubtree (moveStruct t x y) x a →
                permOf (moveStruct t x y) a = some Permission.Private →
                childRel (moveStruct t x y) a b →
                permOf (moveStruct t x y) b = some Permission.Private := by
              intro a b hia hpa hab
              rw [moveStruct_permOf] at hpa
              rcases hsub a b hab with hr | ⟨hay, hbx⟩
              · rw [moveStruct_permOf]
                exact hp a b hpa (Relation.TransGen.single hr)
              · subst hay; subst hbx
                exact absurd (Relation.TransGen.tail' hia hedge) (ha3 b)
            have hexx : ((moveStruct t x y).nodes x).isSome := by
              rw [moveStruct_nodes_isSome]; exact hxex
            have hparx : ∃ q, (moveStruct t x y).parent_map x = some q ∧
                permOf (moveStruct t x y) q = some Permission.Private :=
              ⟨y, by rw [moveStruct_parent_map, if_pos rfl],
                by rw [moveStruct_permOf]; exact hyp⟩
            have hall := updatePermission_private fuel (moveStruct t x y) x t4
              hc3 ha3 hk3 hdc hexx hparx hup
            intro a b hpa htg
            rw [hev'.2.1 a] at hpa
            rw [hev'.2.1 b]
            have htg3 : Relation.TransGen (childRel (moveStruct t x y)) a b :=
              Relation.TransGen.mono (fun u v hr => (hse'.childRel_iff u v).mp hr) htg
            rcases transGen_subEdge hsub htg3 with hl | ⟨hpre, hsuf⟩
            · by_cases hta : permOf t a = some Permission.Private
              · have hb := hp a b hta hl
                exact hev4.2.2 b (by rw [moveStruct_permOf]; exact hb)
              · have hin : inSubtree (moveStruct t x y) x a := by
                  by_contra hno
                  rw [updatePermission_frame fuel (moveStruct t x y) x t4 hup a hno,
                    moveStruct_permOf] at hpa
                  exact hta hpa
                have hinb : inSubtree (moveStruct t x y) x b := by
                  have h1 : inSubtree t x a := moveStruct_inSubtree_down hc hyex ha3 hin
                  exact moveStruct_inSubtree_up hc ha hyex (h1.trans hl.to_reflTransGen)
                exact hall b hinb
            · exact hall b (moveStruct_inSubtree_up hc ha hyex hsuf)
          · have hnoop : t4 = moveStruct t x y := by
              refine updatePermission_noop fuel (moveStruct t x y) x t4 hc3 ?_ hup
              right; right
              intro q hq
              rw [moveStruct_parent_map, if_pos rfl] at hq
              injection hq with hq
              subst hq
              rw [moveStruct_permOf]
              exact hyp
            subst hnoop
            intro a b hpa htg
            rw [hev'.2.1 a, moveStruct_permOf] at hpa
            rw [hev'.2.1 b, moveStruct_permOf]
            have htg3 : Relation.TransGen (childRel (moveStruct t x y)) a b :=
              Relation.TransGen.mono (fun u v hr => (hse'.childRel_iff u v).mp hr) htg
            rcases transGen_subEdge hsub htg3 with hl | ⟨hpre, hsuf⟩
            · exact hp a b hpa hl
            · exfalso
              rcases Relation.reflTransGen_iff_eq_or_transGen.mp hpre with he | ht
              · subst he
                exact hyp hpa
              · rcases transGen_subEdge hsub ht with hl2 | ⟨_, hsuf2⟩
                · exact hyp (hp a y hpa hl2)
                · -- `x ⇝ y` in the old tree means the walk would have found `x`
                  have h5 : Relation.ReflTransGen (paRel t) y x :=
                    (reflTransGen_paRel_iff_childRel hc).mpr hsuf2
                  rcases Relation.reflTransGen_iff_eq_or_transGen.mp h5 with he2 | ht2
                  · exact hxy he2
                  · exact hguard ht2

/-! ### Tag-superset preservation per operation -/

theorem tagSetOf_congr {t u : Tree} {k : Nat}
    (h : tagsOptOf u k = tagsOptOf t k) : tagSetOf u k = tagSetOf t k := by
  unfold tagSetOf
  rw [h]

theorem modifyNode_tags_frame {t : Tree} {k : Nat} {f : TreeNode → TreeNode} {j : Nat}
    (hj : j ≠ k) : tagsOptOf (modifyNode t k f) j = tagsOptOf t j := by
  unfold tagsOptOf
  rw [modifyNode_nodes]
  simp [hj]

/-- On a consistent state, a node strictly inside a subtree has its parent
inside the subtree as well, one child step above it. -/
theorem parent_on_path {t3 : Tree} (hc3 : Consist t3) {root c1 p1 : Nat}
    (hsub : inSubtree t3 root c1) (hne : c1 ≠ root)
    (hpa : t3.parent_map c1 = some p1) :
    inSubtree t3 root p1 ∧ childRel t3 p1 c1 := by
  rcases Relation.reflTransGen_iff_eq_or_transGen.mp hsub with he | ht
  · exact absurd he hne
  · obtain ⟨u, hru, huc⟩ := (Relation.TransGen.tail'_iff).mp ht
    have hcu : paRel t3 c1 u := consist_paRel_of_childRel hc3 huc
    have hup : u = p1 := paRel_functional hcu hpa
    subst hup
    exact ⟨hru, huc⟩

theorem tagInv_add_node {t : Tree} (hc : Consist t) (hk : KeysExist t) (hti : TagInv t)
    (id : Nat) (permission : Permission) : TagInv (t.add_node id permission) := by
  by_cases hex : (t.nodes id).isSome
  · rw [add_node_nodes_dup hex]
    exact hti
  · have hnone : t.nodes id = none := by
      cases hn : t.nodes id with
      | none => rfl
      | some n => rw [hn] at hex; exact absurd rfl hex
    intro c p hcp s hs
    rw [add_node_parent_map] at hcp
    have hcne : c ≠ id := by
      intro he
      subst he
      have := hk c p hcp
      rw [hnone] at this
      cases this
    have hpne : p ≠ id := by
      intro he
      subst he
      obtain ⟨n, hn, _⟩ := hc.1 c p hcp
      rw [hnone] at hn
      cases hn
    have htc : tagsOptOf (t.add_node id permission) c = tagsOptOf t c := by
      unfold tagsOptOf
      rw [add_node_nodes_fresh hnone, if_neg hcne]
    have htp : tagSetOf (t.add_node id permission) p = tagSetOf t p := by
      unfold tagSetOf tagsOptOf
      rw [add_node_nodes_fresh hnone, if_neg hpne]
    rw [htc] at hs
    rw [htp]
    exact hti c p hcp s hs

theorem tagInv_add_tag {fuel : Nat} {t t' : Tree} {id : Nat} {tag : String}
    (hc : Consist t) (ha : ChildAcyclic t) (hk : KeysExist t) (hti : TagInv t)
    (h : Tree.add_tag_to_node fuel t id tag = some t') : TagInv t' := by
  unfold Tree.add_tag_to_node at h
  split at h
  case h_2 =>
    injection h with h
    rw [← h]; exact hti
  case h_1 n hn =>
    set f : TreeNode → TreeNode := fun n =>
      match n.tags with
      | some tags => { n with tags := some (insert tag tags) }
      | none => { n with tags := some {tag} } with hf
    have hse1 : StructEq t (modifyNode t id f) := by
      refine modifyNode_structEq ?_
      intro n1
      rw [hf]
      cases hn1 : n1.tags <;> simp [hn1, nodeShape]
    have hc1 : Consist (modifyNode t id f) := hse1.consist hc
    have ha1 : ChildAcyclic (modifyNode t id f) := hse1.childAcyclic ha
    have hk1 : KeysExist (modifyNode t id f) := hse1.keysExist hk
    have hpush := updateTags_push fuel (modifyNode t id f) id t' hc1 ha1 hk1 h
    have hev := updateTags_evolve fuel (modifyNode t id f) id t' h
    intro c p hcp s hs
    have hpm' : t'.parent_map = t.parent_map := by
      rw [← hev.1.1, ← hse1.1]
    rw [hpm'] at hcp
    by_cases hcid : c = id
    · -- the root of the propagation: it absorbed the parent's tags
      subst hcid
      have hcrpc : childRel t p c := consist_childRel_of_paRel hc hcp
      have hcrpc1 : childRel (modifyNode t c f) p c := (hse1.childRel_iff p c).mpr hcrpc
      have hno : ¬ inSubtree (modifyNode t c f) c p :=
        not_inSubtree_of_childRel ha1 hcrpc1
      have htp : tagSetOf t' p = tagSetOf t p := by
        refine (tagSetOf_congr (updateTags_frame fuel _ c t' h p hno)).trans ?_
        refine tagSetOf_congr ?_
        refine modifyNode_tags_frame ?_
        intro he
        subst he
        exact ha p (Relation.TransGen.single hcrpc)
      have hinh : inheritedTags (modifyNode t c f) c = tagSetOf (modifyNode t c f) p := by
        refine inheritedTags_of_parent ?_
        rw [← hse1.1]
        exact hcp
      have hsetp1 : tagSetOf (modifyNode t c f) p = tagSetOf t p := by
        refine tagSetOf_congr ?_
        refine modifyNode_tags_frame ?_
        intro he
        subst he
        exact ha p (Relation.TransGen.single hcrpc)
      rw [htp, ← hsetp1, ← hinh, ← tagSetOf_of_some hs]
      exact hpush.1
    · by_cases hcsub : inSubtree (modifyNode t id f) id c
      · -- strictly inside the propagated subtree: use the pushed pairs
        obtain ⟨hpin, hpc⟩ := parent_on_path hc1 hcsub hcid
          (by rw [← hse1.1]; exact hcp)
        rw [← tagSetOf_of_some hs]
        exact hpush.2 p c hpin hpc
      · -- untouched by the whole call
        have htagc : tagsOptOf t' c = tagsOptOf t c := by
          refine (updateTags_frame fuel _ id t' h c hcsub).trans ?_
          exact modifyNode_tags_frame hcid
        have hpsub : ¬ inSubtree (modifyNode t id f) id p := by
          intro hsub
          refine hcsub ?_
          refine hsub.trans (Relation.ReflTransGen.single ?_)
          exact (hse1.childRel_iff p c).mpr (consist_childRel_of_paRel hc hcp)
        have hpid : p ≠ id := by
          intro he
          subst he
          exact hcsub (Relation.ReflTransGen.single
            ((hse1.childRel_iff p c).mpr (consist_childRel_of_paRel hc hcp)))
        have htagp : tagSetOf t' p = tagSetOf t p := by
          refine (tagSetOf_congr (updateTags_frame fuel _ id t' h p hpsub)).trans ?_
          exact tagSetOf_congr (modifyNode_tags_frame hpid)
        rw [htagc] at hs
        rw [htagp]
        exact hti c p hcp s hs

theorem tagInv_connect {fuel : Nat} {t t' : Tree} {p c : Nat}
    (hc : Consist t) (ha : ChildAcyclic t) (hk : KeysExist t) (hti : TagInv t)
    (h : Tree.connect_nodes fuel t p c = some t') : TagInv t' := by
  unfold Tree.connect_nodes at h
  split at h
  case isTrue =>
    injection h with h
    rw [← h]; exact hti
  case isFalse hB =>
    obtain ⟨hpex, hcex⟩ := both_exist_of_guard hB
    split at h
    case isTrue =>
      injection h with h
      rw [← h]; exact hti
    case isFalse hpc =>
      split at h
      case isTrue =>
        injection h with h
        rw [← h]; exact hti
      case isFalse hpm =>
        have hpmnone : t.parent_map c = none := by
          cases hq : t.parent_map c with
          | none => rfl
          | some q => rw [hq] at hpm; exact absurd rfl hpm
        cases hup : updatePermission fuel (linkStruct t p c) c with
        | none => rw [hup] at h; cases h
        | some t4 =>
          rw [hup] at h
          simp only [Option.bind] at h
          have hev4 := updatePermission_evolve fuel (linkStruct t p c) c t4 hup
          have ha3 : ChildAcyclic (linkStruct t p c) :=
            linkStruct_acyclic_of_tags_complete ha hpex hev4.1 h
          have hc3 : Consist (linkStruct t p c) := consist_linkStruct hc hpex hpmnone
          have hk3 : KeysExist (linkStruct t p c) := keysExist_linkStruct hk hcex
          have hc4 : Consist t4 := hev4.1.consist hc3
          have ha4 : ChildAcyclic t4 := hev4.1.childAcyclic ha3
          have hk4 : KeysExist t4 := hev4.1.keysExist hk3
          have hedge : childRel (linkStruct t p c) p c :=
            (linkStruct_childRel p c).mpr (Or.inr ⟨rfl, rfl, hpex⟩)
          have hedge4 : childRel t4 p c := (hev4.1.childRel_iff p c).mpr hedge
          have hpush := updateTags_push fuel t4 c t' hc4 ha4 hk4 h
          have htags4 : ∀ k, tagsOptOf t4 k = tagsOptOf t k := by
            intro k
            rw [hev4.2.1 k, linkStruct_tagsOptOf]
          have hpm4 : t4.parent_map = (linkStruct t p c).parent_map := (hev4.1.1).symm
          intro c1 p1 hcp1 s hs
          have hev' := updateTags_evolve fuel t4 c t' h
          have hpmt' : t'.parent_map = t4.parent_map := (hev'.1.1).symm
          rw [hpmt', hpm4, linkStruct_parent_map] at hcp1
          by_cases hc1c : c1 = c
          · -- the freshly linked child: it absorbed `p`'s tags
            rw [if_pos hc1c] at hcp1
            injection hcp1 with hcp1
            subst hcp1
            subst hc1c
            have hno : ¬ inSubtree t4 c1 p := not_inSubtree_of_childRel ha4 hedge4
            have htp : tagSetOf t' p = tagSetOf t4 p :=
              tagSetOf_congr (updateTags_frame fuel _ c1 t' h p hno)
            have hinh : inheritedTags t4 c1 = tagSetOf t4 p := by
              refine inheritedTags_of_parent ?_
              rw [hpm4, linkStruct_parent_map, if_pos rfl]
            rw [htp, ← hinh, ← tagSetOf_of_some hs]
            exact hpush.1
          · rw [if_neg hc1c] at hcp1
            by_cases hcsub : inSubtree t4 c c1
            · obtain ⟨hpin, hpc1⟩ := parent_on_path hc4 hcsub hc1c
                (by rw [hpm4, linkStruct_parent_map, if_neg hc1c]; exact hcp1)
              rw [← tagSetOf_of_some hs]
              exact hpush.2 p1 c1 hpin hpc1
            · have hcr1 : childRel t4 p1 c1 := by
                refine (hev4.1.childRel_iff p1 c1).mpr ?_
                exact (linkStruct_childRel p1 c1).mpr
                  (Or.inl (consist_childRel_of_paRel hc hcp1))
              have hpsub : ¬ inSubtree t4 c p1 := by
                intro hsub
                exact hcsub (hsub.trans (Relation.ReflTransGen.single hcr1))
              have htagc : tagsOptOf t' c1 = tagsOptOf t c1 := by
                rw [updateTags_frame fuel _ c t' h c1 hcsub, htags4]
              have htagp : tagSetOf t' p1 = tagSetOf t p1 := by
                refine (tagSetOf_congr (updateTags_frame fuel _ c t' h p1 hpsub)).trans ?_
                exact tagSetOf_congr (htags4 p1)
              rw [htagc] at hs
              rw [htagp]
              exact hti c1 p1 hcp1 s hs

theorem tagInv_move {fuel : Nat} {t t' : Tree} {x y : Nat}
    (hc : Consist t) (ha : ChildAcyclic t) (hk : KeysExist t) (hti : TagInv t)
    (h : Tree.move_subtree fuel t x y = some t') : TagInv t' := by
  unfold Tree.move_subtree at h
  split at h
  case isTrue =>
    injection h with h
    rw [← h]; exact hti
  case isFalse hB =>
    obtain ⟨hxex, hyex⟩ := both_exist_of_guard hB
    split at h
    · cases h
    case h_2 =>
      injection h with h
      rw [← h]; exact hti
    case h_3 hwalk =>
      cases hup : updatePermission fuel (moveStruct t x y) x with
      | none => rw [hup] at h; cases h
      | some t4 =>
        rw [hup] at h
        simp only [Option.bind] at h
        have hev4 := updatePermission_evolve fuel (moveStruct t x y) x t4 hup
        by_cases hxy : x = y
        · subst hxy
          exact absurd h (fun h2 => moveStruct_self_tags_diverge hc hxex hev4.1 h2)
        · have hguard : ¬ Relation.TransGen (paRel t) y x :=
            isDescendantGo_false fuel y hwalk
          have ha3 : ChildAcyclic (moveStruct t x y) :=
            moveStruct_childAcyclic hc ha hxy hxex hyex hguard
          have hc3 : Consist (moveStruct t x y) := consist_moveStruct hc hxex hyex
          have hk3 : KeysExist (moveStruct t x y) := keysExist_moveStruct hk hxex
          have hc4 : Consist t4 := hev4.1.consist hc3
          have ha4 : ChildAcyclic t4 := hev4.1.childAcyclic ha3
          have hk4 : KeysExist t4 := hev4.1.keysExist hk3
          have hedge : childRel (moveStruct t x y) y x := by
            refine (moveStruct_childRel hc hyex y x).mpr ?_
            rw [if_pos rfl]
          have hedge4 : childRel t4 y x := (hev4.1.childRel_iff y x).mpr hedge
          have hpush := updateTags_push fuel t4 x t' hc4 ha4 hk4 h
          have htags4 : ∀ k, tagsOptOf t4 k = tagsOptOf t k := by
            intro k
            rw [hev4.2.1 k, moveStruct_tagsOptOf]
          have hpm4 : t4.parent_map = (moveStruct t x y).parent_map := (hev4.1.1).symm
          intro c1 p1 hcp1 s hs
          have hev' := updateTags_evolve fuel t4 x t' h
          have hpmt' : t'.parent_map = t4.parent_map := (hev'.1.1).symm
          have hpm1 : (if c1 = x then some y else t.parent_map c1) = some p1 := by
            rw [← moveStruct_parent_map t x y c1, ← hpm4, ← hpmt']
            exact hcp1
          by_cases hc1x : c1 = x
          · rw [if_pos hc1x] at hpm1
            injection hpm1 with hpm1
            subst hpm1
            subst hc1x
            have hno : ¬ inSubtree t4 c1 y := not_inSubtree_of_childRel ha4 hedge4
            have htp : tagSetOf t' y = tagSetOf t4 y :=
              tagSetOf_congr (updateTags_frame fuel _ c1 t' h y hno)
            have hinh : inheritedTags t4 c1 = tagSetOf t4 y := by
              refine inheritedTags_of_parent ?_
              rw [hpm4, moveStruct_parent_map, if_pos rfl]
            rw [htp, ← hinh, ← tagSetOf_of_some hs]
            exact hpush.1
          · rw [if_neg hc1x] at hpm1
            by_cases hcsub : inSubtree t4 x c1
            · obtain ⟨hpin, hpc1⟩ := parent_on_path hc4 hcsub hc1x
                (by rw [hpm4, moveStruct_parent_map, if_neg hc1x]; exact hpm1)
              rw [← tagSetOf_of_some hs]
              exact hpush.2 p1 c1 hpin hpc1
            · have hcr1 : childRel t4 p1 c1 := by
                refine (hev4.1.childRel_iff p1 c1).mpr ?_
                refine (moveStruct_childRel hc hyex p1 c1).mpr ?_
                rw [if_neg hc1x]
                exact consist_childRel_of_paRel hc hpm1
              have hpsub : ¬ inSubtree t4 x p1 := by
                intro hsub
                exact hcsub (hsub.trans (Relation.ReflTransGen.single hcr1))
              have htagc : tagsOptOf t' c1 = tagsOptOf t c1 := by
                rw [updateTags_frame fuel _ x t' h c1 hcsub, htags4]
              have htagp : tagSetOf t' p1 = tagSetOf t p1 := by
                refine (tagSetOf_congr (updateTags_frame fuel _ x t' h p1 hpsub)).trans ?_
                exact tagSetOf_congr (htags4 p1)
              rw [htagc] at hs
              rw [htagp]
              exact hti c1 p1 hpm1 s hs

/-! ### Structural well-formedness of every reachable state -/

theorem eq_none_of_not_isSome {α : Type} {o : Option α} (h : ¬ o.isSome = true) :
    o = none := by
  cases o with
  | none => rfl
  | some a => exact absurd rfl h

theorem childRel_add_node {t : Tree} {id : Nat} (p : Permission) (a b : Nat) :
    childRel (t.add_node id p) a b ↔ childRel t a b := by
  by_cases hex : (t.nodes id).isSome
  · rw [add_node_nodes_dup hex]
  · have hnone : t.nodes id = none := eq_none_of_not_isSome hex
    constructor
    · rintro ⟨n, hn, hb⟩
      rw [add_node_nodes_fresh hnone p a] at hn
      by_cases ha : a = id
      · rw [if_pos ha] at hn
        injection hn with hn
        rw [← hn] at hb
        exact absurd hb (Finset.not_mem_empty b)
      · rw [if_neg ha] at hn
        exact ⟨n, hn, hb⟩
    · rintro ⟨n, hn, hb⟩
      refine ⟨n, ?_, hb⟩
      rw [add_node_nodes_fresh hnone p a]
      by_cases ha : a = id
      · rw [ha] at hn
        rw [hn] at hnone
        cases hnone
      · rw [if_neg ha]
        exact hn

theorem consist_add_node {t : Tree} (hc : Consist t) (id : Nat) (p : Permission) :
    Consist (t.add_node id p) := by
  by_cases hex : (t.nodes id).isSome
  · rw [add_node_nodes_dup hex]
    exact hc
  · have hnone : t.nodes id = none := eq_none_of_not_isSome hex
    constructor
    · intro c q hq
      rw [add_node_parent_map] at hq
      obtain ⟨n, hn, hcm⟩ := hc.1 c q hq
      refine ⟨n, ?_, hcm⟩
      rw [add_node_nodes_fresh hnone p q]
      by_cases hqid : q = id
      · rw [hqid] at hn
        rw [hn] at hnone
        cases hnone
      · rw [if_neg hqid]
        exact hn
    · intro a n c hn hcm
      rw [add_node_parent_map]
      rw [add_node_nodes_fresh hnone p a] at hn
      by_cases haid : a = id
      · rw [if_pos haid] at hn
        injection hn with hn
        rw [← hn] at hcm
        exact absurd hcm (Finset.not_mem_empty c)
      · rw [if_neg haid] at hn
        exact hc.2 a n c hn hcm

theorem keysExist_add_node {t : Tree} (hk : KeysExist t) (id : Nat) (p : Permission) :
    KeysExist (t.add_node id p) := by
  intro c q hq
  rw [add_node_parent_map] at hq
  have h1 := hk c q hq
  by_cases hex : (t.nodes id).isSome
  · rw [add_node_nodes_dup hex]
    exact h1
  · have hnone : t.nodes id = none := eq_none_of_not_isSome hex
    rw [add_node_nodes_fresh hnone p c]
    by_cases hcid : c = id
    · rw [if_pos hcid]
      rfl
    · rw [if_neg hcid]
      exact h1

theorem childAcyclic_add_node {t : Tree} (ha : ChildAcyclic t) (id : Nat) (p : Permission) :
    ChildAcyclic (t.add_node id p) := by
  intro k hk
  refine ha k ?_
  exact Relation.TransGen.mono (fun a b hr => (childRel_add_node p a b).mp hr) hk

theorem structInv_add_tag {fuel : Nat} {t t' : Tree} {id : Nat} {tag : String}
    (hc : Consist t) (ha : ChildAcyclic t) (hk : KeysExist t)
    (h : Tree.add_tag_to_node fuel t id tag = some t') :
    Consist t' ∧ ChildAcyclic t' ∧ KeysExist t' := by
  unfold Tree.add_tag_to_node at h
  split at h
  case h_2 =>
    injection h with h
    rw [← h]
    exact ⟨hc, ha, hk⟩
  case h_1 n0 hn0 =>
    set f : TreeNode → TreeNode := fun n =>
      match n.tags with
      | some tags => { n with tags := some (insert tag tags) }
      | none => { n with tags := some {tag} } with hf
    have hse1 : StructEq t (modifyNode t id f) := by
      refine modifyNode_structEq ?_
      intro n1
      rw [hf]
      cases hn1 : n1.tags <;> simp [hn1, nodeShape]
    have hev := updateTags_evolve fuel (modifyNode t id f) id t' h
    have hse : StructEq t t' := structEq_trans hse1 hev.1
    exact ⟨hse.consist hc, hse.childAcyclic ha, hse.keysExist hk⟩

theorem structInv_connect {fuel : Nat} {t t' : Tree} {p c : Nat}
    (hc : Consist t) (ha : ChildAcyclic t) (hk : KeysExist t)
    (h : Tree.connect_nodes fuel t p c = some t') :
    Consist t' ∧ ChildAcyclic t' ∧ KeysExist t' := by
  unfold Tree.connect_nodes at h
  split at h
  case isTrue =>
    injection h with h
    rw [← h]
    exact ⟨hc, ha, hk⟩
  case isFalse hB =>
    obtain ⟨hpex, hcex⟩ := both_exist_of_guard hB
    split at h
    case isTrue =>
      injection h with h
      rw [← h]
      exact ⟨hc, ha, hk⟩
    case isFalse hpc =>
      split at h
      case isTrue =>
        injection h with h
        rw [← h]
        exact ⟨hc, ha, hk⟩
      case isFalse hpm =>
        have hpmnone : t.parent_map c = none := by
          cases hq : t.parent_map c with
          | none => rfl
          | some q => rw [hq] at hpm; exact absurd rfl hpm
        cases hup : updatePermission fuel (linkStruct t p c) c with
        | none => rw [hup] at h; cases h
        | some t4 =>
          rw [hup] at h
          simp only [Option.bind] at h
          have hev4 := updatePermission_evolve fuel (linkStruct t p c) c t4 hup
          have ha3 : ChildAcyclic (linkStruct t p c) :=
            linkStruct_acyclic_of_tags_complete ha hpex hev4.1 h
          have hc3 : Consist (linkStruct t p c) := consist_linkStruct hc hpex hpmnone
          have hk3 : KeysExist (linkStruct t p c) := keysExist_linkStruct hk hcex
          have hev' := updateTags_evolve fuel t4 c t' h
          have hse : StructEq (linkStruct t p c) t' := structEq_trans hev4.1 hev'.1
          exact ⟨hse.consist hc3, hse.childAcyclic ha3, hse.keysExist hk3⟩

theorem structInv_move {fuel : Nat} {t t' : Tree} {x y : Nat}
    (hc : Consist t) (ha : ChildAcyclic t) (hk : KeysExist t)
    (h : Tree.move_subtree fuel t x y = some t') :
    Consist t' ∧ ChildAcyclic t' ∧ KeysExist t' := by
  unfold Tree.move_subtree at h
  split at h
  case isTrue =>
    injection h with h
    rw [← h]
    exact ⟨hc, ha, hk⟩
  case isFalse hB =>
    obtain ⟨hxex, hyex⟩ := both_exist_of_guard hB
    split at h
    · cases h
    case h_2 =>
      injection h with h
      rw [← h]
      exact ⟨hc, ha, hk⟩
    case h_3 hwalk =>
      cases hup : updatePermission fuel (moveStruct t x y) x with
      | none => rw [hup] at h; cases h
      | some t4 =>
        rw [hup] at h
        simp only [Option.bind] at h
        have hev4 := updatePermission_evolve fuel (moveStruct t x y) x t4 hup
        by_cases hxy : x = y
        · subst hxy
          exact absurd h (fun h2 => moveStruct_self_tags_diverge hc hxex hev4.1 h2)
        · have hguard : ¬ Relation.TransGen (paRel t) y x :=
            isDescendantGo_false fuel y hwalk
          have ha3 : ChildAcyclic (moveStruct t x y) :=
            moveStruct_childAcyclic hc ha hxy hxex hyex hguard
          have hc3 : Consist (moveStruct t x y) := consist_moveStruct hc hxex hyex
          have hk3 : KeysExist (moveStruct t x y) := keysExist_moveStruct hk hxex
          have hev' := updateTags_evolve fuel t4 x t' h
          have hse : StructEq (moveStruct t x y) t' := structEq_trans hev4.1 hev'.1
          exact ⟨hse.consist hc3, hse.childAcyclic ha3, hse.keysExist hk3⟩

theorem structInv_applyMut {fuel : Nat} {t t' : Tree} {op : MutOp}
    (hc : Consist t) (ha : ChildAcyclic t) (hk : KeysExist t)
    (h : applyMut fuel t op = some t') :
    Consist t' ∧ ChildAcyclic t' ∧ KeysExist t' := by
  cases op with
  | add_node id p =>
    simp only [applyMut] at h
    injection h with h
    rw [← h]
    exact ⟨consist_add_node hc id p, childAcyclic_add_node ha id p, keysExist_add_node hk id p⟩
  | add_tag id tag => exact structInv_add_tag hc ha hk h
  | connect p c => exact structInv_connect hc ha hk h
  | move x y => exact structInv_move hc ha hk h

theorem reachable_structInv {t : Tree} (h : Reachable t) :
    Consist t ∧ ChildAcyclic t ∧ KeysExist t := by
  induction h with
  | empty =>
    refine ⟨⟨?_, ?_⟩, ?_, ?_⟩
    · intro c p hcp
      cases hcp
    · intro a n c hn
      cases hn
    · intro k hk
      obtain ⟨z, hz, _⟩ := (Relation.TransGen.head'_iff).mp hk
      obtain ⟨n, hn, _⟩ := hz
      cases hn
    · intro c p hcp
      cases hcp
  | step fuel op hr happ ih =>
    exact structInv_applyMut ih.1 ih.2.1 ih.2.2 happ

/-! ### No node ever carries a present-but-empty tag set -/

theorem tagStep_noEmpty {t : Tree} (hn : NoEmptyTags t) (id : Nat) :
    NoEmptyTags (tagStep t id) := by
  intro k n hk
  unfold tagStep at hk
  rw [modifyNode_nodes] at hk
  by_cases hkid : k = id
  · rw [if_pos hkid] at hk
    cases hm : t.nodes id with
    | none => rw [hm] at hk; cases hk
    | some m =>
      rw [hm] at hk
      simp only [Option.map] at hk
      injection hk with hk
      rw [← hk]
      cases hmt : m.tags with
      | some s =>
        simp only [hmt]
        intro hcon
        injection hcon with hcon
        have hse := Finset.union_eq_empty.mp hcon
        exact hn id m hm (by rw [hmt, hse.1])
      | none =>
        simp only [hmt]
        by_cases hin : inheritedTags t id = ∅
        · rw [if_pos hin]
          rw [hmt]
          intro hcon
          cases hcon
        · rw [if_neg hin]
          intro hcon
          injection hcon with hcon
          exact hin hcon
  · rw [if_neg hkid] at hk
    exact hn k n hk

theorem updateTags_noEmpty :
    ∀ fuel (t : Tree) (id : Nat) (t' : Tree), NoEmptyTags t →
      updateTags fuel t id = some t' → NoEmptyTags t' := by
  intro fuel
  induction fuel with
  | zero => intro t id t' _ h; cases h
  | succ fuel ih =>
    intro t id t' hn h
    simp only [updateTags] at h
    split at h
    case h_1 node hnode =>
      have hrun := @runList_rel (fun u c => updateTags fuel u c)
        (fun u v => NoEmptyTags u → NoEmptyTags v)
        (fun u hu => hu) (fun a b c h1 h2 hu => h2 (h1 hu))
        (fun u c u' hu hne => ih u c u' hne hu)
      exact hrun _ _ _ h (tagStep_noEmpty hn id)
    case h_2 =>
      injection h with h
      rw [← h]
      exact tagStep_noEmpty hn id

theorem noEmpty_add_node {t : Tree} (hn : NoEmptyTags t) (id : Nat) (p : Permission) :
    NoEmptyTags (t.add_node id p) := by
  by_cases hex : (t.nodes id).isSome
  · rw [add_node_nodes_dup hex]
    exact hn
  · have hnone : t.nodes id = none := eq_none_of_not_isSome hex
    intro k n hk
    rw [add_node_nodes_fresh hnone p k] at hk
    by_cases hkid : k = id
    · rw [if_pos hkid] at hk
      injection hk with hk
      rw [← hk]
      intro hcon
      cases hcon
    · rw [if_neg hkid] at hk
      exact hn k n hk

theorem noEmpty_add_tag {fuel : Nat} {t t' : Tree} {id : Nat} {tag : String}
    (hn : NoEmptyTags t) (h : Tree.add_tag_to_node fuel t id tag = some t') :
    NoEmptyTags t' := by
  unfold Tree.add_tag_to_node at h
  split at h
  case h_2 =>
    injection h with h
    rw [← h]
    exact hn
  case h_1 n0 hn0 =>
    refine updateTags_noEmpty fuel _ id t' ?_ h
    intro k m hk
    rw [modifyNode_nodes] at hk
    by_cases hkid : k = id
    · rw [if_pos hkid, hn0] at hk
      simp only [Option.map] at hk
      injection hk with hk
      rw [← hk]
      cases hnt : n0.tags with
      | some s =>
        simp only [hnt]
        intro hcon
        injection hcon with hcon
        exact absurd hcon (Finset.insert_ne_empty tag s)
      | none =>
        simp only [hnt]
        intro hcon
        injection hcon with hcon
        exact absurd hcon (Finset.singleton_ne_empty tag)
    · rw [if_neg hkid] at hk
      exact hn k m hk

theorem noEmpty_connect {fuel : Nat} {t t' : Tree} {p c : Nat}
    (hn : NoEmptyTags t) (h : Tree.connect_nodes fuel t p c = some t') :
    NoEmptyTags t' := by
  unfold Tree.connect_nodes at h
  split at h
  case isTrue =>
    injection h with h
    rw [← h]
    exact hn
  case isFalse hB =>
    split at h
    case isTrue =>
      injection h with h
      rw [← h]
      exact hn
    case isFalse hpc =>
      split at h
      case isTrue =>
        injection h with h
        rw [← h]
        exact hn
      case isFalse hpm =>
        cases hup : updatePermission fuel (linkStruct t p c) c with
        | none => rw [hup] at h; cases h
        | some t4 =>
          rw [hup] at h
          simp only [Option.bind] at h
          have hev4 := updatePermission_evolve fuel (linkStruct t p c) c t4 hup
          have hn3 : NoEmptyTags (linkStruct t p c) :=
            noEmptyTags_of_tagsEq (fun k => linkStruct_tagsOptOf t p c k) hn
          have hn4 : NoEmptyTags t4 := noEmptyTags_of_tagsEq hev4.2.1 hn3
          exact updateTags_noEmpty fuel t4 c t' hn4 h

theorem noEmpty_move {fuel : Nat} {t t' : Tree} {x y : Nat}
    (hn : NoEmptyTags t) (h : Tree.move_subtree fuel t x y = some t') :
    NoEmptyTags t' := by
  unfold Tree.move_subtree at h
  split at h
  case isTrue =>
    injection h with h
    rw [← h]
    exact hn
  case isFalse hB =>
    split at h
    · cases h
    case h_2 =>
      injection h with h
      rw [← h]
      exact hn
    case h_3 hwalk =>
      cases hup : updatePermission fuel (moveStruct t x y) x with
      | none => rw [hup] at h; cases h
      | some t4 =>
        rw [hup] at h
        simp only [Option.bind] at h
        have hev4 := updatePermission_evolve fuel (moveStruct t x y) x t4 hup
        have hn3 : NoEmptyTags (moveStruct t x y) :=
          noEmptyTags_of_tagsEq (fun k => moveStruct_tagsOptOf t x y k) hn
        have hn4 : NoEmptyTags t4 := noEmptyTags_of_tagsEq hev4.2.1 hn3
        exact updateTags_noEmpty fuel t4 x t' hn4 h

theorem noEmpty_applyMut {fuel : Nat} {t t' : Tree} {op : MutOp}
    (hn : NoEmptyTags t) (h : applyMut fuel t op = some t') : NoEmptyTags t' := by
  cases op with
  | add_node id p =>
    simp only [applyMut] at h
    injection h with h
    rw [← h]
    exact noEmpty_add_node hn id p
  | add_tag id tag => exact noEmpty_add_tag hn h
  | connect p c => exact noEmpty_connect hn h
  | move x y => exact noEmpty_move hn h

theorem reachable_noEmpty {t : Tree} (h : Reachable t) : NoEmptyTags t := by
  induction h with
  | empty =>
    intro k n hk
    cases hk
  | step fuel op hr happ ih => exact noEmpty_applyMut ih happ

/-! ### Characterizing the child-set search variant of `is_descendant` -/

theorem anyList_true {f : Nat → Option Bool} :
    ∀ l, anyList f l = some true → ∃ c, c ∈ l ∧ f c = some true := by
  intro l
  induction l with
  | nil => intro h; cases h
  | cons c cs ih =>
    intro h
    unfold anyList at h
    cases hf : f c with
    | none => simp only [hf] at h; cases h
    | some b =>
      cases b
      · simp only [hf] at h
        obtain ⟨d, hd, hfd⟩ := ih h
        exact ⟨d, List.mem_cons_of_mem c hd, hfd⟩
      · exact ⟨c, List.mem_cons_self c cs, hf⟩

theorem anyList_false {f : Nat → Option Bool} :
    ∀ l c, anyList f l = some false → c ∈ l → f c = some false := by
  intro l
  induction l with
  | nil =>
    intro c h hc
    cases hc
  | cons c1 cs ih =>
    intro c h hc
    unfold anyList at h
    cases hf : f c1 with
    | none => simp only [hf] at h; cases h
    | some b =>
      cases b
      · simp only [hf] at h
        rcases List.mem_cons.mp hc with he | hin
        · rw [he]
          exact hf
        · exact ih c h hin
      · simp only [hf] at h
        cases h

theorem is_descendant_cs_true :
    ∀ fuel (t : Tree) (a b : Nat), is_descendant_cs fuel t a b = some true →
      Relation.TransGen (childRel t) a b := by
  intro fuel
  induction fuel with
  | zero => intro t a b h; cases h
  | succ fuel ih =>
    intro t a b h
    simp only [is_descendant_cs] at h
    cases hn : t.nodes a with
    | none => simp only [hn] at h; cases h
    | some node =>
      simp only [hn] at h
      by_cases hb : b ∈ node.children
      · exact Relation.TransGen.single ⟨node, hn, hb⟩
      · rw [if_neg hb] at h
        obtain ⟨c, hc, hfc⟩ := anyList_true _ h
        have hcc : c ∈ node.children := mem_sortKeys.mp hc
        exact Relation.TransGen.head ⟨node, hn, hcc⟩ (ih t c b hfc)

theorem is_descendant_cs_false :
    ∀ fuel (t : Tree) (a b : Nat), is_descendant_cs fuel t a b = some false →
      ¬ Relation.TransGen (childRel t) a b := by
  intro fuel
  induction fuel with
  | zero => intro t a b h; cases h
  | succ fuel ih =>
    intro t a b h hpath
    simp only [is_descendant_cs] at h
    obtain ⟨c0, hc0, hrtg⟩ := (Relation.TransGen.head'_iff).mp hpath
    obtain ⟨node, hn, hmem⟩ := hc0
    simp only [hn] at h
    by_cases hb : b ∈ node.children
    · rw [if_pos hb] at h
      cases h
    · rw [if_neg hb] at h
      have hfc : is_descendant_cs fuel t c0 b = some false :=
        anyList_false _ c0 h (mem_sortKeys.mpr hmem)
      rcases Relation.reflTransGen_iff_eq_or_transGen.mp hrtg with he | ht
      · rw [he] at hb
        exact hb hmem
      · exact ih t c0 b hfc ht

/-! ### Simple sufficient conditions for the invariants on small states -/

theorem consist_of_no_edges {t : Tree} (hpm : ∀ c, t.parent_map c = none)
    (hch : ∀ a n, t.nodes a = some n → n.children = ∅) : Consist t := by
  constructor
  · intro c p hcp
    rw [hpm c] at hcp
    cases hcp
  · intro a n c hn hcm
    rw [hch a n hn] at hcm
    exact absurd hcm (Finset.not_mem_empty c)

theorem childAcyclic_of_no_children {t : Tree}
    (hch : ∀ a n, t.nodes a = some n → n.children = ∅) : ChildAcyclic t := by
  intro k hk
  obtain ⟨z, hz, _⟩ := (Relation.TransGen.head'_iff).mp hk
  obtain ⟨n, hn, hm⟩ := hz
  rw [hch k n hn] at hm
  exact absurd hm (Finset.not_mem_empty z)

theorem privClosed_of_no_children {t : Tree}
    (hch : ∀ a n, t.nodes a = some n → n.children = ∅) : PrivClosed t := by
  intro a b hpa htg
  obtain ⟨z, hz, _⟩ := (Relation.TransGen.head'_iff).mp htg
  obtain ⟨n, hn, hm⟩ := hz
  rw [hch a n hn] at hm
  exact absurd hm (Finset.not_mem_empty z)

theorem keysExist_of_no_parents {t : Tree} (hpm : ∀ c, t.parent_map c = none) :
    KeysExist t := by
  intro c p hcp
  rw [hpm c] at hcp
  cases hcp

theorem tagInv_of_no_parents {t : Tree} (hpm : ∀ c, t.parent_map c = none) :
    TagInv t := by
  intro c p hcp
  rw [hpm c] at hcp
  cases hcp

theorem parentAcyclic_of_no_parents {t : Tree} (hpm : ∀ c, t.parent_map c = none) :
    ParentAcyclic t := by
  intro k hk
  obtain ⟨z, hz, _⟩ := (Relation.TransGen.head'_iff).mp hk
  unfold paRel at hz
  rw [hpm k] at hz
  cases hz

/-! ### Concrete states used to exercise the claim theorems -/

def tA : Tree := Tree.new.add_node 1 Permission.Private

def tB : Tree := (Tree.new.add_node 1 Permission.Private).add_node 2 Permission.Private

def tC : Tree := (tB.connect_nodes 6 1 2).getD Tree.new

def tD : Tree := (Tree.new.add_node 1 Permission.Private).add_node 2 Permission.Public

def t_three : Tree :=
  ((Tree.new.add_node 1 Permission.Public).add_node 2 Permission.Public).add_node 3
    Permission.Public

theorem tD_parent_none (c : Nat) : tD.parent_map c = none := rfl

theorem tD_nodes (a : Nat) : tD.nodes a =
    if a = 2 then some ⟨2, Permission.Public, ∅, none⟩
    else if a = 1 then some ⟨1, Permission.Private, ∅, none⟩ else none := rfl

theorem tD_children (a : Nat) (n : TreeNode) (hn : tD.nodes a = some n) :
    n.children = ∅ := by
  rw [tD_nodes] at hn
  by_cases h2 : a = 2
  · rw [if_pos h2] at hn
    injection hn with hn
    rw [← hn]
  · rw [if_neg h2] at hn
    by_cases h1 : a = 1
    · rw [if_pos h1] at hn
      injection hn with hn
      rw [← hn]
    · rw [if_neg h1] at hn
      cases hn

/-! ### The claims -/

/-- Claim C3: completing any `connect_nodes`, `add_tag_to_node` or
`move_subtree` call on a consistent, acyclic state whose `Private` nodes have
all-`Private` descendants yields a state in which, again, every descendant of
a `Private` node is `Private`. -/
theorem C3_private_closure_preserved (fuel : Nat) (t : Tree)
    (hc : Consist t) (ha : ChildAcyclic t) (hk : KeysExist t) (hp : PrivClosed t) :
    (∀ p c t', Tree.connect_nodes fuel t p c = some t' → PrivClosed t') ∧
    (∀ id tag t', Tree.add_tag_to_node fuel t id tag = some t' → PrivClosed t') ∧
    (∀ x y t', Tree.move_subtree fuel t x y = some t' → PrivClosed t') :=
  ⟨fun p c t' h => privClosed_connect hc ha hk hp h,
   fun id tag t' h => privClosed_add_tag hp h,
   fun x y t' h => privClosed_move hc ha hk hp h⟩

theorem C3_private_closure_witness :
    PrivClosed ((tD.connect_nodes 6 1 2).getD Tree.new) :=
  (C3_private_closure_preserved 6 tD
      (consist_of_no_edges tD_parent_none tD_children)
      (childAcyclic_of_no_children tD_children)
      (keysExist_of_no_parents tD_parent_none)
      (privClosed_of_no_children tD_children)).1 1 2
    ((tD.connect_nodes 6 1 2).getD Tree.new) rfl

/-- Claim C4: every state reachable from the empty tree by a sequence of
completed operations satisfies bidirectional parent/child consistency: each
parent-map entry points to an existing node whose child set contains the key,
and each member of any node's child set has a parent-map entry pointing back
to that node. -/
theorem C4_reachable_consistency (t : Tree) (h : Reachable t) : Consist t :=
  (reachable_structInv h).1

theorem C4_reachable_consistency_witness :
    Consist ((t_three.connect_nodes 6 1 2).getD Tree.new) := by
  refine C4_reachable_consistency _ ?_
  have h1 : Reachable (Tree.new.add_node 1 Permission.Public) :=
    Reachable.step 1 (MutOp.add_node 1 Permission.Public) Reachable.empty rfl
  have h2 : Reachable ((Tree.new.add_node 1 Permission.Public).add_node 2
      Permission.Public) :=
    Reachable.step 1 (MutOp.add_node 2 Permission.Public) h1 rfl
  have h3 : Reachable t_three :=
    Reachable.step 1 (MutOp.add_node 3 Permission.Public) h2 rfl
  exact Reachable.step 6 (MutOp.connect 1 2) h3 rfl

/-- Claim C5: completing any mutating operation (`add_node`, `connect_nodes`,
`add_tag_to_node`, `move_subtree`) on a consistent, acyclic state satisfying
the tag-superset invariant yields a state where every node with a parent and a
present tag set carries a superset of the parent's tag set. -/
theorem C5_tag_superset_preserved (fuel : Nat) (t t' : Tree) (op : MutOp)
    (hc : Consist t) (ha : ChildAcyclic t) (hk : KeysExist t) (hti : TagInv t)
    (h : applyMut fuel t op = some t') : TagInv t' := by
  cases op with
  | add_node id p =>
    simp only [applyMut] at h
    injection h with h
    rw [← h]
    exact tagInv_add_node hc hk hti id p
  | add_tag id tag => exact tagInv_add_tag hc ha hk hti h
  | connect p c => exact tagInv_connect hc ha hk hti h
  | move x y => exact tagInv_move hc ha hk hti h

theorem C5_tag_superset_witness :
    TagInv ((tD.add_tag_to_node 6 1 "t").getD Tree.new) :=
  C5_tag_superset_preserved 6 tD ((tD.add_tag_to_node 6 1 "t").getD Tree.new)
    (MutOp.add_tag 1 "t")
    (consist_of_no_edges tD_parent_none tD_children)
    (childAcyclic_of_no_children tD_children)
    (keysExist_of_no_parents tD_parent_none)
    (tagInv_of_no_parents tD_parent_none) rfl

/-- Claim C10: in every state reachable from the empty tree, each node's tags
field is either absent (`none`) or a non-empty set; no operation produces a
present-but-empty tag set. -/
theorem C10_no_empty_tag_sets (t : Tree) (h : Reachable t) : NoEmptyTags t :=
  reachable_noEmpty h

theorem C10_no_empty_tag_sets_witness :
    NoEmptyTags ((tD.add_tag_to_node 6 2 "u").getD Tree.new) := by
  refine C10_no_empty_tag_sets _ ?_
  have h1 : Reachable (Tree.new.add_node 1 Permission.Private) :=
    Reachable.step 1 (MutOp.add_node 1 Permission.Private) Reachable.empty rfl
  have h2 : Reachable tD :=
    Reachable.step 1 (MutOp.add_node 2 Permission.Public) h1 rfl
  exact Reachable.step 6 (MutOp.add_tag 2 "u") h2 rfl

/-- Claim C7: `connect_nodes` returns the unchanged tree whenever a key is
missing, the two keys are equal, or the child already has a parent-map entry;
a call that passes all three checks performs the structural link followed by
both propagation passes rooted at the child, and any completed such call
records the parent-map entry `c -> p` and the membership of `c` in `p`'s
child set. -/
theorem C7_connect_guard_and_effect (fuel : Nat) (t : Tree) (p c : Nat) :
    ((t.nodes p).isSome = false ∨ (t.nodes c).isSome = false ∨ p = c ∨
        (t.parent_map c).isSome = true →
      Tree.connect_nodes fuel t p c = some t) ∧
    ((t.nodes p).isSome = true → (t.nodes c).isSome = true → p ≠ c →
      (t.parent_map c).isSome = false →
      (Tree.connect_nodes fuel t p c =
        (updatePermission fuel (linkStruct t p c) c).bind
          (fun t4 => updateTags fuel t4 c)) ∧
      ∀ t', Tree.connect_nodes fuel t p c = some t' →
        t'.parent_map c = some p ∧ ∃ n, t'.nodes p = some n ∧ c ∈ n.children) := by
  constructor
  · intro hcase
    unfold Tree.connect_nodes
    rcases hcase with h | h | h | h
    · rw [h]
      exact if_pos rfl
    · rw [h]
      cases hx : (t.nodes p).isSome <;> exact if_pos rfl
    · subst h
      split
      · rfl
      · exact if_pos rfl
    · by_cases hg : (!(t.nodes p).isSome || !(t.nodes c).isSome) = true
      · exact if_pos hg
      · rw [if_neg hg]
        by_cases hpc2 : p = c
        · exact if_pos hpc2
        · rw [if_neg hpc2]
          rw [h]
          exact if_pos rfl
  · intro hpe hce hpc hpm
    have heq : Tree.connect_nodes fuel t p c =
        (updatePermission fuel (linkStruct t p c) c).bind
          (fun t4 => updateTags fuel t4 c) := by
      unfold Tree.connect_nodes
      have hg1 : ¬((!true || !true) = true) := by decide
      have hg2 : ¬(false = true) := by decide
      rw [hpe, hce, if_neg hg1, if_neg hpc, hpm, if_neg hg2]
    refine ⟨heq, ?_⟩
    intro t' ht'
    rw [heq] at ht'
    cases hup : updatePermission fuel (linkStruct t p c) c with
    | none => rw [hup] at ht'; cases ht'
    | some t4 =>
      rw [hup] at ht'
      simp only [Option.bind] at ht'
      have hev4 := updatePermission_evolve fuel (linkStruct t p c) c t4 hup
      have hev' := updateTags_evolve fuel t4 c t' ht'
      have hse : StructEq (linkStruct t p c) t' := structEq_trans hev4.1 hev'.1
      constructor
      · rw [← hse.1, linkStruct_parent_map, if_pos rfl]
      · cases hm : t.nodes p with
        | none =>
          rw [hm] at hpe
          exact absurd hpe (by decide)
        | some m =>
          have hln : (linkStruct t p c).nodes p =
              some { m with children := insert c m.children } := by
            rw [linkStruct_nodes, if_pos rfl, hm]
            rfl
          obtain ⟨m', hm', hid, hch⟩ := hse.nodes_some hln
          refine ⟨m', hm', ?_⟩
          rw [hch]
          exact Finset.mem_insert_self c m.children

theorem C7_connect_guard_witness :
    Tree.connect_nodes 6 tD 1 1 = some tD ∧
    ((tD.connect_nodes 6 1 2).getD Tree.new).parent_map 2 = some 1 := by
  constructor
  · exact (C7_connect_guard_and_effect 6 tD 1 1).1 (Or.inr (Or.inr (Or.inl rfl)))
  · exact (((C7_connect_guard_and_effect 6 tD 1 2).2 rfl rfl (by decide) rfl).2
      ((tD.connect_nodes 6 1 2).getD Tree.new) rfl).1

/-- Claim C8: on a consistent state with an acyclic parent map, whenever the
descendant-child-set search variant of `is_descendant` (`main.rs`) and the
ancestor-parent-chain walk variant (`lib.rs`) both return an answer for a pair
of existing keys, the two answers are the same boolean. -/
theorem C8_cycle_checks_agree (t : Tree) (hc : Consist t) (hpa : ParentAcyclic t)
    (a b : Nat) (hae : (t.nodes a).isSome = true) (hbe : (t.nodes b).isSome = true)
    (fuel1 fuel2 : Nat) (b1 b2 : Bool)
    (h1 : is_descendant_cs fuel1 t a b = some b1)
    (h2 : t.is_descendant fuel2 a b = some b2) : b1 = b2 := by
  have h2w : isDescendantGo t a fuel2 b = some b2 := h2
  cases b1 with
  | false =>
    cases b2 with
    | false => rfl
    | true =>
      have hw : Relation.TransGen (paRel t) b a := isDescendantGo_true fuel2 b h2w
      have hch : Relation.TransGen (childRel t) a b :=
        (transGen_paRel_iff_childRel hc).mp hw
      exact absurd hch (is_descendant_cs_false fuel1 t a b h1)
  | true =>
    cases b2 with
    | false =>
      have hch := is_descendant_cs_true fuel1 t a b h1
      have hw : Relation.TransGen (paRel t) b a :=
        (transGen_paRel_iff_childRel hc).mpr hch
      exact absurd hw (isDescendantGo_false fuel2 b h2w)
    | true => rfl

theorem C8_cycle_checks_witness :
    is_descendant_cs 1 tD 1 2 = some false ∧ tD.is_descendant 1 1 2 = some false ∧
    false = false :=
  ⟨rfl, rfl,
    C8_cycle_checks_agree tD (consist_of_no_edges tD_parent_none tD_children)
      (parentAcyclic_of_no_parents tD_parent_none) 1 2 rfl rfl 1 1 false false rfl rfl⟩

/-- Claim C9: with nodes 1, 2, 3 created `Public`, running
`add_tag_to_node(1, "t")` and `connect_nodes(1, 2)` in either order leaves
node 2's tag set containing `"t"`: tag inheritance at link time pulls from the
parent's current tag set. -/
theorem C9_link_pulls_current_tags :
    (∃ u, (t_three.add_tag_to_node 6 1 "t").bind
        (fun v => v.connect_nodes 6 1 2) = some u ∧ "t" ∈ tagSetOf u 2) ∧
    (∃ u, (t_three.connect_nodes 6 1 2).bind
        (fun v => v.add_tag_to_node 6 1 "t") = some u ∧ "t" ∈ tagSetOf u 2) :=
  ⟨⟨((t_three.add_tag_to_node 6 1 "t").bind
      (fun v => v.connect_nodes 6 1 2)).getD Tree.new, rfl, by decide⟩,
   ⟨((t_three.connect_nodes 6 1 2).bind
      (fun v => v.add_tag_to_node 6 1 "t")).getD Tree.new, rfl, by decide⟩⟩

/-- Claim C1: REFUTED on the self-move case. With node 1 present, the
ancestor-chain guard answers `false` for `move_subtree(1, 1)` — the walk
starts at the parent of 1 and never counts the zero-length chain as ancestry —
so the self-move is not rejected; the call then never completes (the model
returns `none` for every fuel, mirroring the unbounded recursion of
`update_tags` once node 1 is its own child), instead of being a no-op that
leaves the tree unchanged. -/
theorem C1_self_move_not_rejected :
    Tree.is_descendant tA 1 1 1 = some false ∧
    ∀ fuel, Tree.move_subtree fuel tA 1 1 = none := by
  refine ⟨rfl, ?_⟩
  intro fuel
  cases fuel with
  | zero => rfl
  | succ fuel =>
    have hstep : Tree.move_subtree (fuel + 1) tA 1 1 =
        (updatePermission (fuel + 1) (moveStruct tA 1 1) 1).bind
          (fun t4 => updateTags (fuel + 1) t4 1) := rfl
    have hperm : updatePermission (fuel + 1) (moveStruct tA 1 1) 1 =
        some (moveStruct tA 1 1) := rfl
    rw [hstep, hperm]
    simp only [Option.bind]
    refine updateTags_cycle (fuel + 1) (moveStruct tA 1 1) 1 ?_
    refine Relation.TransGen.single ?_
    refine ⟨_, rfl, ?_⟩
    decide

/-- Claim C2: REFUTED. Not every operation terminates on every reachable
state: `tB` (two `Private` root nodes) is reachable from the empty tree, yet
`move_subtree(2, 2)` passes its guard, makes node 2 its own child and then
recurses forever through that child set — in the model the call returns
`none` for every fuel. -/
theorem C2_termination_refuted :
    Reachable tB ∧ ∀ fuel, Tree.move_subtree fuel tB 2 2 = none := by
  constructor
  · have h1 : Reachable (Tree.new.add_node 1 Permission.Private) :=
      Reachable.step 1 (MutOp.add_node 1 Permission.Private) Reachable.empty rfl
    exact Reachable.step 1 (MutOp.add_node 2 Permission.Private) h1 rfl
  · intro fuel
    cases fuel with
    | zero => rfl
    | succ fuel =>
      have hstep : Tree.move_subtree (fuel + 1) tB 2 2 =
          (updatePermission (fuel + 1) (moveStruct tB 2 2) 2).bind
            (fun t4 => updateTags (fuel + 1) t4 2) := rfl
      have hperm : updatePermission (fuel + 1) (moveStruct tB 2 2) 2 =
          some (moveStruct tB 2 2) := rfl
      rw [hstep, hperm]
      simp only [Option.bind]
      refine updateTags_cycle (fuel + 1) (moveStruct tB 2 2) 2 ?_
      refine Relation.TransGen.single ?_
      refine ⟨_, rfl, ?_⟩
      decide

/-- Claim C6: REFUTED. `move_subtree` is not atomic: on the reachable chain
state `tC` (node 1 the parent of node 2), the self-move `move_subtree(2, 2)`
passes every precondition check, performs its structural mutation — the
parent-map entry of node 2 is rewritten from 1 to 2 before propagation
starts — and then the propagation never completes, so the operation neither
fully applies nor no-ops with the state unchanged. -/
theorem C6_move_not_atomic :
    Reachable tC ∧
    tC.parent_map 2 = some 1 ∧
    (moveStruct tC 2 2).parent_map 2 = some 2 ∧
    ∀ fuel, Tree.move_subtree fuel tC 2 2 = none := by
  refine ⟨?_, rfl, rfl, ?_⟩
  · have h1 : Reachable (Tree.new.add_node 1 Permission.Private) :=
      Reachable.step 1 (MutOp.add_node 1 Permission.Private) Reachable.empty rfl
    have h2 : Reachable tB :=
      Reachable.step 1 (MutOp.add_node 2 Permission.Private) h1 rfl
    exact Reachable.step 6 (MutOp.connect 1 2) h2 rfl
  · intro fuel
    cases fuel with
    | zero => rfl
    | succ fuel =>
      cases fuel with
      | zero => rfl
      | succ fuel =>
        have hstep : Tree.move_subtree (fuel + 1 + 1) tC 2 2 =
            (updatePermission (fuel + 1 + 1) (moveStruct tC 2 2) 2).bind
              (fun t4 => updateTags (fuel + 1 + 1) t4 2) := rfl
        have hperm : updatePermission (fuel + 1 + 1) (moveStruct tC 2 2) 2 =
            some (moveStruct tC 2 2) := rfl
        rw [hstep, hperm]
        simp only [Option.bind]
        refine updateTags_cycle (fuel + 1 + 1) (moveStruct tC 2 2) 2 ?_
        refine Relation.TransGen.single ?_
        refine ⟨_, rfl, ?_⟩
        decide

end PermissionTree
